import Mathlib

/-!
Shallow embedding of the indexed key-value store implemented in
`src/db.py` (class `SimpleDB`, namespace `KV` below) and
`src/simpledb.py` (class `SimpleDB` with inverted index, attachments and
authentication, namespace `SDB` below).

Modelling conventions:
- Python dicts are insertion-ordered association lists; assigning an
  existing key keeps its position, assigning a fresh key appends.
- JSON-like dynamic values are the inductive `Value`; numbers are
  modelled as integers (the JSON integer literals exercised by the
  repository and its examples).  Python treats `bool` as a subclass of
  `int`, which the model mirrors where the source uses
  `isinstance(value, (int, float))`.
- File-system effects (snapshot I/O, attachment blobs), locking and the
  wall-clock timeout interrupts are external to the pure model; `load`
  and `save` are modelled against an abstract `Snapshot` value.
- Authentication guards of `src/simpledb.py` (`current_user`,
  `current_role`) are modelled for an authenticated admin session: the
  claims under study are about the data behaviour of the operations.
-/

/-! ## String utilities (Python `str` operations on ASCII data) -/

/-- Lexicographic comparison of character lists by code point, the order
Python uses for strings. -/
def strLtL : List Char → List Char → Bool
  | [], [] => false
  | [], _ :: _ => true
  | _ :: _, [] => false
  | a :: as, b :: bs =>
    if a.toNat < b.toNat then true
    else if b.toNat < a.toNat then false
    else strLtL as bs

/-- Python string `<`. -/
def strLt (a b : String) : Bool := strLtL a.data b.data

/-- Python string `<=` (total order, so the negation of the reverse `<`). -/
def strLe (a b : String) : Bool := !(strLt b a)

/-- Python `str.lower()` (ASCII fragment). -/
def lowerStr (s : String) : String := ⟨s.data.map Char.toLower⟩

/-- Deduplication keeping first occurrences; deterministic stand-in for
iterating a Python `set` built from a list. -/
def dedupF : List String → List String
  | [] => []
  | x :: xs => x :: ((dedupF xs).filter (fun y => y != x))

/-- Word characters of the regex `\w` (ASCII fragment). -/
def isWordChar (c : Char) : Bool := c.isAlphanum || c == '_'

/-- Maximal runs of word characters, i.e. `re.findall(r'\b\w+\b', s)`. -/
def runsAux : List Char → List Char → List String
  | [], [] => []
  | [], acc => [⟨acc.reverse⟩]
  | c :: cs, acc =>
    if isWordChar c then runsAux cs (c :: acc)
    else
      match acc with
      | [] => runsAux cs []
      | _ :: _ => (⟨acc.reverse⟩ : String) :: runsAux cs []

/-- Tokens of a string: maximal runs of word characters. -/
def wordRuns (s : String) : List String := runsAux s.data []

/-- Python `str.split()` with no argument: maximal runs of
non-whitespace characters. -/
def wsRunsAux : List Char → List Char → List String
  | [], [] => []
  | [], acc => [⟨acc.reverse⟩]
  | c :: cs, acc =>
    if c.isWhitespace then
      match acc with
      | [] => wsRunsAux cs []
      | _ :: _ => (⟨acc.reverse⟩ : String) :: wsRunsAux cs []
    else wsRunsAux cs (c :: acc)

/-- Python `str.split()`. -/
def splitWs (s : String) : List String := wsRunsAux s.data []

/-! ## Dynamic values -/

/-- JSON-like dynamic value, the payload type of the record store. -/
inductive Value where
  | null
  | bool (b : Bool)
  | num (n : Int)
  | str (s : String)
  | arr (elems : List Value)
  | obj (fields : List (String × Value))

/-- Python `isinstance(v, (int, float))`: true for numbers and also for
booleans, because `bool` is a subclass of `int` in Python. -/
def isNumericPy : Value → Bool
  | .num _ => true
  | .bool _ => true
  | _ => false

/-- The numeric value a Python number-or-boolean contributes to the
numeric index (`True` counts as 1, `False` as 0). -/
def numValOf : Value → Int
  | .num n => n
  | .bool b => if b then 1 else 0
  | _ => 0

/-- Number in the strict sense of the specification: integer or floating
point, booleans excluded. -/
def isNumberValue : Value → Bool
  | .num _ => true
  | _ => false

/-- Python truthiness of a value. -/
def pyFalsy : Value → Bool
  | .null => true
  | .bool b => !b
  | .num n => decide (n = 0)
  | .str s => s.data.isEmpty
  | .arr xs => xs.isEmpty
  | .obj fs => fs.isEmpty

/-! ## Association lists with Python-dict semantics -/

/-- First-match lookup in an association list keyed by strings
(Python `d[k]` / `k in d`). -/
def lookupA {β : Type} : List (String × β) → String → Option β
  | [], _ => none
  | (k', x) :: rest, k => if k' = k then some x else lookupA rest k

/-- Python dict assignment `d[k] = v`: replace in place if the key is
present, append otherwise. -/
def setA {β : Type} : List (String × β) → String → β → List (String × β)
  | [], k, v => [(k, v)]
  | (k', x) :: rest, k, v =>
    if k' = k then (k, v) :: rest else (k', x) :: setA rest k v

/-- Python dict deletion `del d[k]` (removes the first matching entry;
dict keys are unique in all reachable states). -/
def eraseA {β : Type} : List (String × β) → String → List (String × β)
  | [], _ => []
  | (k', x) :: rest, k =>
    if k' = k then rest else (k', x) :: eraseA rest k

/-! ## Serialization (`json.dumps`) -/

/-- JSON string escaping (quote and backslash; the printable-ASCII
fragment exercised by the repository). -/
def escChar (c : Char) : List Char :=
  if c == '"' then ['\\', '"']
  else if c == '\\' then ['\\', '\\']
  else [c]

/-- Escaped, quoted JSON rendering of a string. -/
def jsonQuote (s : String) : String :=
  ⟨'"' :: (s.data.flatMap escChar) ++ ['"']⟩

mutual
/-- Rendering of `json.dumps(v)` with default separators and the given
field order (no key sorting); this is what `read` returns. -/
def serializeRaw : Value → String
  | .null => "null"
  | .bool b => if b then "true" else "false"
  | .num n => toString n
  | .str s => jsonQuote s
  | .arr xs => "[" ++ serializeRawList xs ++ "]"
  | .obj fs => "\x7b" ++ serializeRawFields fs ++ "\x7d"

/-- Comma-separated rendering of array elements. -/
def serializeRawList : List Value → String
  | [] => ""
  | [v] => serializeRaw v
  | v :: vs => serializeRaw v ++ ", " ++ serializeRawList vs

/-- Comma-separated rendering of object fields. -/
def serializeRawFields : List (String × Value) → String
  | [] => ""
  | [(k, v)] => jsonQuote k ++ ": " ++ serializeRaw v
  | (k, v) :: fs => jsonQuote k ++ ": " ++ serializeRaw v ++ ", " ++ serializeRawFields fs
end

/-- Stable insertion of a field into a key-sorted field list. -/
def insortField (p : String × Value) : List (String × Value) → List (String × Value)
  | [] => [p]
  | q :: fs => if strLe q.1 p.1 then q :: insortField p fs else p :: q :: fs

/-- Sort object fields by key (Python `sorted` on dict items). -/
def insortAll (fs : List (String × Value)) : List (String × Value) :=
  fs.foldl (fun acc p => insortField p acc) []

mutual
/-- Recursively sort every object's fields by key, modelling the
key-ordering effect of `json.dumps(v, sort_keys=True)`. -/
def sortValue : Value → Value
  | .null => .null
  | .bool b => .bool b
  | .num n => .num n
  | .str s => .str s
  | .arr xs => .arr (sortValueList xs)
  | .obj fs => .obj (insortAll (sortValueFields fs))

/-- Elementwise key-sorting over array elements. -/
def sortValueList : List Value → List Value
  | [] => []
  | v :: vs => sortValue v :: sortValueList vs

/-- Elementwise key-sorting over object field values. -/
def sortValueFields : List (String × Value) → List (String × Value)
  | [] => []
  | (k, v) :: fs => (k, sortValue v) :: sortValueFields fs
end

/-- Canonical serialization `json.dumps(v, sort_keys=True)`, the string
used as an Equality Index bucket label throughout the source. -/
def serialize (v : Value) : String := serializeRaw (sortValue v)

/-! ## Python textual rendering (`str(value)`) and tokenization -/

mutual
/-- Python `repr` of a parsed JSON value (ASCII fragment; strings are
rendered in single quotes). -/
def pyRepr : Value → String
  | .null => "None"
  | .bool b => if b then "True" else "False"
  | .num n => toString n
  | .str s => "\x27" ++ s ++ "\x27"
  | .arr xs => "[" ++ pyReprList xs ++ "]"
  | .obj fs => "\x7b" ++ pyReprFields fs ++ "\x7d"

/-- Comma-separated `repr` of list elements. -/
def pyReprList : List Value → String
  | [] => ""
  | [v] => pyRepr v
  | v :: vs => pyRepr v ++ ", " ++ pyReprList vs

/-- Comma-separated `repr` of dict items. -/
def pyReprFields : List (String × Value) → String
  | [] => ""
  | [(k, v)] => "\x27" ++ k ++ "\x27: " ++ pyRepr v
  | (k, v) :: fs => "\x27" ++ k ++ "\x27: " ++ pyRepr v ++ ", " ++ pyReprFields fs
end

/-- Python `str(value)`: the string itself at top level, `repr`
otherwise. -/
def pyStr : Value → String
  | .str s => s
  | .null => pyRepr .null
  | .bool b => pyRepr (.bool b)
  | .num n => pyRepr (.num n)
  | .arr xs => pyRepr (.arr xs)
  | .obj fs => pyRepr (.obj fs)

/-- Token set of a value used by the Inverted Token Index:
`set(re.findall(r'\b\w+\b', str(value).lower()))`, as a duplicate-free
list. -/
def tokensOf (v : Value) : List String := dedupF (wordRuns (lowerStr (pyStr v)))

/-! ## Value parsing (`parse_value`) -/

/-- Numeric value of a digit list. -/
def natOfDigits (cs : List Char) : Nat :=
  cs.foldl (fun a c => a * 10 + (c.toNat - 48)) 0

/-- JSON integer literal (digits, optional single leading minus, no
leading zeros). -/
def parseNatLit : List Char → Option Nat
  | [] => none
  | c :: cs =>
    if (c :: cs).all Char.isDigit then
      if c = '0' ∧ cs ≠ [] then none
      else some (natOfDigits (c :: cs))
    else none

/-- Signed JSON integer literal. -/
def parseIntLit : List Char → Option Int
  | [] => none
  | '-' :: rest => (parseNatLit rest).map (fun n => -(n : Int))
  | cs => (parseNatLit cs).map (fun n => (n : Int))

/-- Scalar fragment of `parse_value`: `json.loads` on the literals
`true`, `false`, `null` and integer literals, with the source's fallback
of keeping the raw text as a string when decoding fails.  Composite JSON
documents and floating literals are outside this fragment (the general
theorems below quantify over already-parsed values instead); the
student-schema validation of the source only inspects parsed objects and
is therefore vacuous on this fragment. -/
def parse_value (s : String) : Value :=
  if s = "true" then .bool true
  else if s = "false" then .bool false
  else if s = "null" then .null
  else
    match parseIntLit s.data with
    | some n => .num n
    | none => .str s

/-! ## Index buckets -/

/-- Bucket-map type of the Equality Index and the Inverted Token Index:
a `defaultdict(list)` from label to list of keys. -/
def Idx : Type := List (String × List String)

/-- The source's `self.index[label].append(key)`: append to the bucket,
creating it (at the end, as `defaultdict` does) when absent. -/
def bucketAppend : Idx → String → String → Idx
  | [], b, k => [(b, [k])]
  | (b', ks) :: rest, b, k =>
    if b' = b then (b', ks ++ [k]) :: rest
    else (b', ks) :: bucketAppend rest b k

/-- The source's removal idiom
`if key in self.index[label]: self.index[label].remove(key);
if not self.index[label]: del self.index[label]`.
Note the `defaultdict` access in the membership test creates an empty
bucket when the label is absent, exactly as in Python. -/
def bucketRemove : Idx → String → String → Idx
  | [], b, _ => [(b, [])]
  | (b', ks) :: rest, b, k =>
    if b' = b then
      if k ∈ ks then
        if ks.erase k = [] then rest else (b', ks.erase k) :: rest
      else (b', ks) :: rest
    else (b', ks) :: bucketRemove rest b k

/-- Append a key to the bucket of every token in the list
(`for word in words: self.inverted_index[word].append(key)`). -/
def addTokens (idx : Idx) (ts : List String) (k : String) : Idx :=
  ts.foldl (fun i t => bucketAppend i t k) idx

/-- Remove a key from the bucket of every token in the list. -/
def removeTokens (idx : Idx) (ts : List String) (k : String) : Idx :=
  ts.foldl (fun i t => bucketRemove i t k) idx

/-- Membership of a key in the bucket of a label. -/
def inB (idx : Idx) (b k : String) : Prop :=
  ∃ ks, lookupA idx b = some ks ∧ k ∈ ks

/-! ## The flat sorted numeric index (the "B-tree" that never splits) -/

/-- The source's `btree_insert`: append the pair and stably re-sort the
single node's key list ascending by numeric value; on a sorted list this
places the new pair after all entries of value at most the new value. -/
def btreeIns : List (String × Int) → String → Int → List (String × Int)
  | [], k, n => [(k, n)]
  | (k', n') :: rest, k, n =>
    if n' ≤ n then (k', n') :: btreeIns rest k n
    else (k, n) :: (k', n') :: rest

/-- Stable ascending sort by value of a pair list (`list.sort` keyed on
the numeric component), as performed by `rebuild_indices`. -/
def sortPairs (l : List (String × Int)) : List (String × Int) :=
  l.foldl (fun acc p => btreeIns acc p.1 p.2) []

/-- The source's `btree_range_query`: linear scan of the node's keys,
collecting keys whose value is strictly above (`>`) or strictly below
(`<`) the query value. -/
def btree_range_query (bt : List (String × Int)) (operator : String) (x : Int) : List String :=
  (bt.filter (fun p =>
    (operator == ">" && decide (x < p.2)) || (operator == "<" && decide (p.2 < x)))).map Prod.fst

/-! ## Operation outcomes and undo records -/

/-- Outcome of an engine operation, abstracting the result strings the
source returns to the caller (validation errors are returned, never
raised) and the one unhandled exception modelled here. -/
inductive Outcome where
  | ok
  | keyExists
  | keyNotFound
  | typeError
  | noTx
  | txInProgress
deriving DecidableEq

/-- Undo record of the transaction log: the tuples
`("create", key, None)`, `("update", key, old_value)` and
`("delete", key, old_value)` appended by the source.  The third
component of a create record is kept as an `Option` to mirror the tuple
the source logs (always `None` for create).  Upload records of the
attachment subsystem are outside the modelled core. -/
inductive URec where
  | create (k : String) (old : Option Value)
  | update (k : String) (old : Value)
  | delete (k : String) (old : Value)

/-! ## KV: the engine of `src/db.py` -/

/-- Engine state of `src/db.py`: record store, Equality Index
(`value_index`), flat sorted Numeric Range Index (`btree_root.keys`),
transaction log and transaction flag. -/
structure KV where
  store : List (String × Value)
  value_index : Idx
  btree : List (String × Int)
  transaction_log : List URec
  transaction_active : Bool

/-- Freshly initialised engine (no snapshot file present). -/
def kvEmpty : KV :=
  { store := [], value_index := [], btree := [], transaction_log := [], transaction_active := false }

/-- Body of `create` for an absent key and a parsed value. -/
def KV.createParsed (db : KV) (k : String) (v : Value) : KV :=
  { store := setA db.store k v
    value_index := bucketAppend db.value_index (serialize v) k
    btree := if isNumericPy v then btreeIns db.btree k (numValOf v) else db.btree
    transaction_log :=
      if db.transaction_active then db.transaction_log ++ [URec.create k none]
      else db.transaction_log
    transaction_active := db.transaction_active }

/-- The source's `create(key, value)`: fail with `KeyExists` when the
key is present (before parsing), otherwise parse, insert, index, log
inside a transaction (persistence is external to the model). -/
def KV.create (db : KV) (k : String) (raw : String) : KV × Outcome :=
  if (lookupA db.store k).isSome then (db, .keyExists)
  else (db.createParsed k (parse_value raw), .ok)

/-- Body of `update` for a present key with prior value `old` and parsed
new value `v` (capture prior value, replace, move index entries, log). -/
def KV.updateBody (db : KV) (k : String) (old v : Value) : KV :=
  { store := setA db.store k v
    value_index :=
      bucketAppend (bucketRemove db.value_index (serialize old) k) (serialize v) k
    btree :=
      let bt0 := db.btree.filter (fun p => p.1 != k)
      if isNumericPy v then btreeIns bt0 k (numValOf v) else bt0
    transaction_log :=
      if db.transaction_active then db.transaction_log ++ [URec.update k old]
      else db.transaction_log
    transaction_active := db.transaction_active }

/-- The source's `update(key, value)`: fail with `KeyNotFound` when the
key is absent, otherwise replace the value and maintain both indexes. -/
def KV.update (db : KV) (k : String) (raw : String) : KV × Outcome :=
  match lookupA db.store k with
  | none => (db, .keyNotFound)
  | some old => (db.updateBody k old (parse_value raw), .ok)

/-- The source's `delete(key)`: fail with `KeyNotFound` when the key is
absent, otherwise remove the record and its index entries. -/
def KV.delete (db : KV) (k : String) : KV × Outcome :=
  match lookupA db.store k with
  | none => (db, .keyNotFound)
  | some v =>
    ({ store := eraseA db.store k
       value_index := bucketRemove db.value_index (serialize v) k
       btree := db.btree.filter (fun p => p.1 != k)
       transaction_log :=
         if db.transaction_active then db.transaction_log ++ [URec.delete k v]
         else db.transaction_log
       transaction_active := db.transaction_active }, .ok)

/-- The source's `rebuild_indices`: clear both indexes and repopulate
them in one pass over the store; numeric pairs are collected in store
order and batch-sorted ascending by value. -/
def KV.rebuild (db : KV) : KV :=
  { db with
    value_index :=
      db.store.foldl (fun i kv => bucketAppend i (serialize kv.2) kv.1) []
    btree :=
      sortPairs ((db.store.filter (fun kv => isNumericPy kv.2)).map
        (fun kv => (kv.1, numValOf kv.2))) }

/-- The source's `begin`. -/
def KV.begin (db : KV) : KV × Outcome :=
  if db.transaction_active then (db, .txInProgress)
  else ({ db with transaction_active := true, transaction_log := [] }, .ok)

/-- Replay of one undo record, exactly as the body of the source's
rollback loop: a create record deletes the key outright, deriving the
index bucket from the logged `old_value` — which is always `None` for a
create record, so the value-index removal is skipped; an update or
delete record re-installs the prior value and triggers a full index
rebuild. -/
def KV.applyUndo (db : KV) : URec → KV
  | .create k old =>
    match lookupA db.store k with
    | none => db
    | some _ =>
      { db with
        store := eraseA db.store k
        value_index :=
          match old with
          | none => db.value_index
          | some ov => bucketRemove db.value_index (serialize ov) k
        btree := db.btree.filter (fun p => p.1 != k) }
  | .update k old => KV.rebuild { db with store := setA db.store k old }
  | .delete k old => KV.rebuild { db with store := setA db.store k old }

/-- Replay of the undo log front-to-back, in recorded order, as the
source's `for op, key, old_value in self.transaction_log` loop does. -/
def KV.replay (db : KV) (l : List URec) : KV := l.foldl KV.applyUndo db

/-- The source's `rollback`: fail with `NoTransaction` when idle,
otherwise replay the undo log in recorded order, clear it and return to
the idle state. -/
def KV.rollback (db : KV) : KV × Outcome :=
  if db.transaction_active then
    let db2 := db.replay db.transaction_log
    ({ db2 with transaction_log := [], transaction_active := false }, .ok)
  else (db, .noTx)

/-- The source's `read(key)`: `json.dumps` of the stored value (without
key sorting), or a `KeyNotFound` result. -/
def KV.read (db : KV) (k : String) : Option String :=
  match lookupA db.store k with
  | none => none
  | some v => some (serializeRaw v)

/-! ## Persistence (`load` / `save`) against an abstract snapshot -/

/-- Abstract content of the snapshot file: absent, unreadable
(`json.JSONDecodeError`), readable but with a non-object top level
(`ValueError`), or a well-formed store document. -/
inductive Snapshot where
  | absent
  | corrupt
  | nonObject
  | valid (m : List (String × Value))

/-- The source's `save`: serialize the whole store to the snapshot
(backup copy, temp file, fsync and atomic replace are file-system
effects outside the pure model). -/
def KV.save (db : KV) : Snapshot := .valid db.store

/-- The source's `load`: no file leaves the store as initialised; a
well-formed document becomes the store followed by a full index rebuild;
a parse failure or a non-object top level is treated as corruption — the
store resets to empty and is immediately re-saved over the corrupt file
(the exception is caught, so the process continues).  The timeout branch
is an external effect outside the model. -/
def KV.load (db : KV) (snap : Snapshot) : KV × Snapshot :=
  match snap with
  | .absent => (db, .absent)
  | .valid m => (KV.rebuild { db with store := m }, .valid m)
  | .corrupt =>
    let db2 := { db with store := ([] : List (String × Value)) }
    (db2, db2.save)
  | .nonObject =>
    let db2 := { db with store := ([] : List (String × Value)) }
    (db2, db2.save)

/-! ## SDB: the engine of `src/simpledb.py` -/

/-- Engine state of `src/simpledb.py`: the `KV` state extended with the
Inverted Token Index.  Attachment metadata lives inside stored values
under the reserved `file_paths` field. -/
structure SDB where
  store : List (String × Value)
  value_index : Idx
  inverted_index : Idx
  btree : List (String × Int)
  transaction_log : List URec
  transaction_active : Bool

/-- Freshly initialised engine (no snapshot file present). -/
def sdbEmpty : SDB :=
  { store := [], value_index := [], inverted_index := [], btree := [],
    transaction_log := [], transaction_active := false }

/-- Body of `create` for an absent key and a parsed value: insert,
update all three indexes, log inside a transaction. -/
def SDB.createParsed (db : SDB) (k : String) (v : Value) : SDB :=
  { store := setA db.store k v
    value_index := bucketAppend db.value_index (serialize v) k
    inverted_index := addTokens db.inverted_index (tokensOf v) k
    btree := if isNumericPy v then btreeIns db.btree k (numValOf v) else db.btree
    transaction_log :=
      if db.transaction_active then db.transaction_log ++ [URec.create k none]
      else db.transaction_log
    transaction_active := db.transaction_active }

/-- The source's `create` at the parsed-value level: fail with
`KeyExists` when the key is present, otherwise run the create body. -/
def SDB.createParsedOp (db : SDB) (k : String) (v : Value) : SDB × Outcome :=
  if (lookupA db.store k).isSome then (db, .keyExists)
  else (db.createParsed k v, .ok)

/-- The source's `create(key, value)` under an authenticated session:
fail with `KeyExists` when the key is present (before parsing),
otherwise parse, insert and index. -/
def SDB.create (db : SDB) (k : String) (raw : String) : SDB × Outcome :=
  if (lookupA db.store k).isSome then (db, .keyExists)
  else (db.createParsed k (parse_value raw), .ok)

/-- Attachment carry-forward of `update`:
`if isinstance(old_value, dict) and "file_paths" in old_value:
parsed_value["file_paths"] = old_value["file_paths"]`.
`none` models the `TypeError` this assignment raises when the new
parsed value is not a dict (item assignment on a non-dict). -/
def carryFw (old parsed : Value) : Option Value :=
  match old with
  | .obj ofs =>
    match lookupA ofs "file_paths" with
    | some fp =>
      match parsed with
      | .obj pfs => some (.obj (setA pfs "file_paths" fp))
      | _ => none
    | none => some parsed
  | _ => some parsed

/-- Body of `update` for a present key with prior value `old` and
effective new value `v`: replace the stored value, move the entries of
all three indexes, log inside a transaction. -/
def SDB.updateBody (db : SDB) (k : String) (old v : Value) : SDB :=
  { store := setA db.store k v
    value_index :=
      bucketAppend (bucketRemove db.value_index (serialize old) k) (serialize v) k
    inverted_index :=
      addTokens (removeTokens db.inverted_index (tokensOf old) k) (tokensOf v) k
    btree :=
      let bt0 := db.btree.filter (fun p => p.1 != k)
      if isNumericPy v then btreeIns bt0 k (numValOf v) else bt0
    transaction_log :=
      if db.transaction_active then db.transaction_log ++ [URec.update k old]
      else db.transaction_log
    transaction_active := db.transaction_active }

/-- The source's `update(key, value)` post-parse: fail with
`KeyNotFound` when the key is absent; carry attachment metadata forward
(raising `TypeError`, with nothing yet mutated, when the prior value
holds `file_paths` and the new value is not a dict); otherwise run the
update body. -/
def SDB.updateParsed (db : SDB) (k : String) (parsed : Value) : SDB × Outcome :=
  match lookupA db.store k with
  | none => (db, .keyNotFound)
  | some old =>
    match carryFw old parsed with
    | none => (db, .typeError)
    | some v2 => (db.updateBody k old v2, .ok)

/-- The source's `update(key, value)` on raw text. -/
def SDB.update (db : SDB) (k : String) (raw : String) : SDB × Outcome :=
  db.updateParsed k (parse_value raw)

/-- The source's `delete(key)` under an authenticated admin session:
fail with `KeyNotFound` when the key is absent, otherwise remove the
record and the entries of all three indexes (physical removal of
attachment blobs is an external file-system effect). -/
def SDB.delete (db : SDB) (k : String) : SDB × Outcome :=
  match lookupA db.store k with
  | none => (db, .keyNotFound)
  | some v =>
    ({ store := eraseA db.store k
       value_index := bucketRemove db.value_index (serialize v) k
       inverted_index := removeTokens db.inverted_index (tokensOf v) k
       btree := db.btree.filter (fun p => p.1 != k)
       transaction_log :=
         if db.transaction_active then db.transaction_log ++ [URec.delete k v]
         else db.transaction_log
       transaction_active := db.transaction_active }, .ok)

/-- The source's `rebuild_indices`: clear all three indexes and
repopulate them in one pass over the store; numeric pairs are collected
in store order and batch-sorted ascending by value. -/
def SDB.rebuild (db : SDB) : SDB :=
  { db with
    value_index :=
      db.store.foldl (fun i kv => bucketAppend i (serialize kv.2) kv.1) []
    inverted_index :=
      db.store.foldl (fun i kv => addTokens i (tokensOf kv.2) kv.1) []
    btree :=
      sortPairs ((db.store.filter (fun kv => isNumericPy kv.2)).map
        (fun kv => (kv.1, numValOf kv.2))) }

/-- Modelled from the spec: `begin` is called by the command loop of
`src/simpledb.py` but has no definition in that file; following §4.3 of
the specification (`Idle` to `Active`, failing with
`TransactionInProgress` when already active) and the sibling
implementation in `src/db.py`. -/
def SDB.begin (db : SDB) : SDB × Outcome :=
  if db.transaction_active then (db, .txInProgress)
  else ({ db with transaction_active := true, transaction_log := [] }, .ok)

/-- Replay of one undo record, exactly as the body of the source's
rollback loop in `src/simpledb.py`: a create record deletes the key
outright, deriving the equality bucket from the logged `old_value`
(`None` for every create record, so the removal is skipped) and the
token buckets from `str(old_value).lower() if old_value else ""`
(likewise skipped); an update or delete record re-installs the prior
value and triggers a full index rebuild. -/
def SDB.applyUndo (db : SDB) : URec → SDB
  | .create k old =>
    match lookupA db.store k with
    | none => db
    | some _ =>
      { db with
        store := eraseA db.store k
        value_index :=
          match old with
          | none => db.value_index
          | some ov => bucketRemove db.value_index (serialize ov) k
        inverted_index :=
          match old with
          | none => db.inverted_index
          | some ov =>
            if pyFalsy ov then db.inverted_index
            else removeTokens db.inverted_index (tokensOf ov) k
        btree := db.btree.filter (fun p => p.1 != k) }
  | .update k old => SDB.rebuild { db with store := setA db.store k old }
  | .delete k old => SDB.rebuild { db with store := setA db.store k old }

/-- Replay of the undo log front-to-back, in recorded order. -/
def SDB.replay (db : SDB) (l : List URec) : SDB := l.foldl SDB.applyUndo db

/-- The source's `rollback` under an authenticated session: fail with
`NoTransaction` when idle, otherwise replay the undo log in recorded
order, clear it and return to the idle state. -/
def SDB.rollback (db : SDB) : SDB × Outcome :=
  if db.transaction_active then
    let db2 := db.replay db.transaction_log
    ({ db2 with transaction_log := [], transaction_active := false }, .ok)
  else (db, .noTx)

/-! ## Full-text query (`find`, `fulltext` branch) -/

/-- Outcome of the `fulltext` branch of `find`: the empty-query error,
the no-terms-found result, or a key list. -/
inductive FtOut where
  | emptyQuery
  | noResults
  | found (keys : List String)
deriving DecidableEq

/-- Whitespace tokens of the lowercased query string:
`set(parsed_query_value.lower().split())` as a duplicate-free list. -/
def ftTokens (q : String) : List String := dedupF (splitWs (lowerStr q))

/-- The `fulltext` branch of the source's `find`: tokenize the query,
fail on an empty token set, collect the buckets of the tokens that are
present in the Inverted Token Index, report no results when none is
present, and otherwise return the intersection of the collected
buckets. -/
def SDB.fulltext (db : SDB) (q : String) : FtOut :=
  match ftTokens q with
  | [] => .emptyQuery
  | _ :: _ =>
    match (ftTokens q).filter (fun w => (lookupA db.inverted_index w).isSome) with
    | [] => .noResults
    | w0 :: rest =>
      .found (((lookupA db.inverted_index w0).getD []).filter
        (fun k => rest.all (fun w => ((lookupA db.inverted_index w).getD []).contains k)))

/-! ## Sort and limit post-processing of `find` -/

/-- Sort key produced by the source's `get_sort_key`: `float('-inf')`
for records that are not dicts or miss the field, otherwise the field's
value (numbers and booleans compare numerically, strings
lexicographically; `other` stands for values whose comparison with every
key class used here raises `TypeError` — elementwise list-list
comparison is not modelled, no claim depends on it). -/
inductive SKey where
  | negInf
  | num (n : Int)
  | str (s : String)
  | other
deriving DecidableEq

/-- Sort-key classification of a field value. -/
def toSKey : Value → SKey
  | .num n => .num n
  | .bool b => .num (if b then 1 else 0)
  | .str s => .str s
  | _ => .other

/-- The source's `get_sort_key(key, sort_field)`; keys outside the store
raise `KeyError` in the source, the theorems below only apply it to
store keys. -/
def SDB.get_sort_key (db : SDB) (k : String) (sort_field : String) : SKey :=
  match lookupA db.store k with
  | none => .other
  | some v =>
    if sort_field.data.isEmpty then
      match v with
      | .num n => .num n
      | .bool b => .num (if b then 1 else 0)
      | .str s => .str s
      | w => .str (pyStr w)
    else
      match v with
      | .obj fs =>
        match lookupA fs sort_field with
        | some fv => toSKey fv
        | none => .negInf
      | _ => .negInf

/-- Python `<` on sort keys; `none` models the `TypeError` raised on
incomparable operands (for example a string against `float('-inf')`). -/
def pyLtK : SKey → SKey → Option Bool
  | .negInf, .negInf => some false
  | .negInf, .num _ => some true
  | .num _, .negInf => some false
  | .num a, .num b => some (decide (a < b))
  | .str a, .str b => some (strLt a b)
  | _, _ => none

/-- Insert an element into an already-sorted accumulator, placing it
after every element it is not strictly below; `none` propagates a
comparison failure. -/
def insertLt {α : Type} (lt : α → α → Option Bool) (x : α) : List α → Option (List α)
  | [] => some [x]
  | y :: ys =>
    match lt x y with
    | none => none
    | some true => some (x :: y :: ys)
    | some false =>
      match insertLt lt x ys with
      | none => none
      | some r => some (y :: r)

/-- Stable ascending sort driven by a partial `<`, modelling the
observable behaviour of CPython's stable `list.sort(key=...)`: the
stable ascending permutation on mutually comparable keys, a `TypeError`
(`none`) when incomparable keys are compared. -/
def sortLtAux {α : Type} (lt : α → α → Option Bool) : List α → List α → Option (List α)
  | [], acc => some acc
  | x :: xs, acc =>
    match insertLt lt x acc with
    | none => none
    | some acc2 => sortLtAux lt xs acc2

/-- Stable ascending sort of a whole list. -/
def sortLt {α : Type} (lt : α → α → Option Bool) (l : List α) : Option (List α) :=
  sortLtAux lt l []

/-- Outcome of the post-processing tail of `find`. -/
inductive PPOut where
  | sortError
  | ok (keys : List String)
deriving DecidableEq

/-- Post-processing tail of the source's `find`: when a sort field is
given, stably sort the result keys by `get_sort_key` (a comparison
`TypeError` is caught and returned as a sorting error); when a limit is
given, truncate to the first `n` keys after sorting. -/
def SDB.postProcess (db : SDB) (results : List String)
    (sort_field : Option String) (lim : Option Nat) : PPOut :=
  let sorted :=
    match sort_field with
    | none => some results
    | some f => sortLt (fun a b => pyLtK (db.get_sort_key a f) (db.get_sort_key b f)) results
  match sorted with
  | none => .sortError
  | some r =>
    .ok (match lim with
         | none => r
         | some n => r.take n)

/-! ## Operation sequences (for the index-consistency invariant) -/

/-- A non-transactional engine operation at the parsed-value level. -/
inductive SOp where
  | createOp (k : String) (v : Value)
  | updateOp (k : String) (v : Value)
  | deleteOp (k : String)

/-- Apply one operation, keeping the resulting state. -/
def SDB.applyOp (db : SDB) : SOp → SDB
  | .createOp k v => (db.createParsedOp k v).1
  | .updateOp k v => (db.updateParsed k v).1
  | .deleteOp k => (db.delete k).1

/-- Apply a sequence of operations from left to right. -/
def SDB.applyOps (db : SDB) (ops : List SOp) : SDB := ops.foldl SDB.applyOp db


/-- Object test of the carry-forward branch (`isinstance(parsed_value, dict)`
from the perspective of item assignment). -/
def isObjValue : Value → Bool
  | .obj _ => true
  | _ => false

/-- Sort keys that belong to the numeric comparability class: the
`float('-inf')` default and numeric field values.  Within this class
Python comparisons never raise. -/
def isNumClass : SKey → Bool
  | .negInf => true
  | .num _ => true
  | _ => false

/-- Numeric content of a numeric-class sort key, with `float('-inf')`
mapped to the bottom element. -/
def numKeyVal : SKey → WithBot Int
  | .negInf => ⊥
  | .num n => (n : WithBot Int)
  | _ => ⊥

/-- Fixture: two records with a numeric `age` field, for the sort
post-processing witness. -/
def sortFixture : SDB :=
  { sdbEmpty with
    store := [("s1", Value.obj [("age", Value.num 2)]), ("s2", Value.obj [("age", Value.num 1)])] }

/-- Sort keys that belong to the string comparability class: string
field values.  Within this class Python comparisons never raise. -/
def isStrClass : SKey → Bool
  | .str _ => true
  | _ => false

/-- String content of a string-class sort key. -/
def strKeyVal : SKey → String
  | .str s => s
  | _ => ""

/-- Fixture: two records with a string `Name` field, for the sort
post-processing witness of the all-string comparability class. -/
def strFixture : SDB :=
  { sdbEmpty with
    store := [("t1", Value.obj [("Name", Value.str "bob")]),
              ("t2", Value.obj [("Name", Value.str "alice")])] }

/-- Fixture: a record whose value carries attachment metadata under the
reserved `file_paths` field. -/
def attachFixture : SDB :=
  { sdbEmpty with store := [("k", Value.obj [("file_paths", Value.arr [])])] }

/-! ## Lemmas: association lists -/

theorem lookupA_eq_none_iff {β : Type} (l : List (String × β)) (k : String) :
    lookupA l k = none ↔ k ∉ l.map Prod.fst := by
  induction l with
  | nil => simp [lookupA]
  | cons p rest ih =>
    obtain ⟨k0, x⟩ := p
    by_cases h : k0 = k
    · subst h; simp [lookupA]
    · simp [lookupA, h, ih, Ne.symm h]

theorem lookupA_isSome_iff {β : Type} (l : List (String × β)) (k : String) :
    (lookupA l k).isSome = true ↔ k ∈ l.map Prod.fst := by
  rcases h : lookupA l k with _ | v
  · simpa [h] using (lookupA_eq_none_iff l k).mp h
  · simp only [h, Option.isSome_some, true_iff]
    by_contra hk
    rw [← lookupA_eq_none_iff] at hk
    rw [h] at hk
    exact Option.noConfusion hk

theorem lookupA_setA {β : Type} (l : List (String × β)) (k q : String) (v : β) :
    lookupA (setA l k v) q = if k = q then some v else lookupA l q := by
  induction l with
  | nil => simp [setA, lookupA]
  | cons p rest ih =>
    obtain ⟨k0, x⟩ := p
    by_cases h0 : k0 = k
    · subst h0
      by_cases h1 : k0 = q
      · subst h1; simp [setA, lookupA]
      · simp [setA, lookupA, h1]
    · by_cases h1 : k0 = q
      · subst h1
        have hk : ¬ k = k0 := fun hkk => h0 hkk.symm
        simp [setA, lookupA, h0, hk]
      · simp [setA, lookupA, h0, h1, ih]

theorem keys_setA {β : Type} (l : List (String × β)) (k : String) (v : β) :
    (setA l k v).map Prod.fst =
      if k ∈ l.map Prod.fst then l.map Prod.fst else l.map Prod.fst ++ [k] := by
  induction l with
  | nil => simp [setA]
  | cons p rest ih =>
    obtain ⟨k0, x⟩ := p
    by_cases h0 : k0 = k
    · subst h0; simp [setA]
    · simp only [setA, if_neg h0, List.map_cons, List.mem_cons, ih]
      by_cases h1 : k ∈ rest.map Prod.fst <;> simp [h1, Ne.symm h0]

theorem keys_setA_nodup {β : Type} (l : List (String × β)) (k : String) (v : β)
    (h : (l.map Prod.fst).Nodup) : ((setA l k v).map Prod.fst).Nodup := by
  rw [keys_setA]
  by_cases h1 : k ∈ l.map Prod.fst
  · simpa [h1] using h
  · simp [h1, List.nodup_append, h]

theorem lookupA_eraseA_ne {β : Type} (l : List (String × β)) (k q : String) (h : q ≠ k) :
    lookupA (eraseA l k) q = lookupA l q := by
  induction l with
  | nil => simp [eraseA]
  | cons p rest ih =>
    obtain ⟨k0, x⟩ := p
    by_cases h0 : k0 = k
    · subst h0
      have hq : ¬ k0 = q := fun hq => h hq.symm
      simp [eraseA, lookupA, hq]
    · by_cases h1 : k0 = q
      · subst h1; simp [eraseA, lookupA, h0]
      · simp [eraseA, lookupA, h0, h1, ih]

theorem lookupA_eraseA_self {β : Type} (l : List (String × β)) (k : String)
    (h : (l.map Prod.fst).Nodup) : lookupA (eraseA l k) k = none := by
  induction l with
  | nil => simp [eraseA, lookupA]
  | cons p rest ih =>
    obtain ⟨k0, x⟩ := p
    simp only [List.map_cons, List.nodup_cons] at h
    by_cases h0 : k0 = k
    · subst h0
      simpa [eraseA, lookupA_eq_none_iff] using h.1
    · simp [eraseA, lookupA, h0, ih h.2]

theorem keys_eraseA_sublist {β : Type} (l : List (String × β)) (k : String) :
    ((eraseA l k).map Prod.fst).Sublist (l.map Prod.fst) := by
  induction l with
  | nil => simp [eraseA]
  | cons p rest ih =>
    obtain ⟨k0, x⟩ := p
    by_cases h0 : k0 = k
    · subst h0; simp [eraseA]
    · simpa [eraseA, h0] using ih.cons₂ k0

theorem keys_eraseA_nodup {β : Type} (l : List (String × β)) (k : String)
    (h : (l.map Prod.fst).Nodup) : ((eraseA l k).map Prod.fst).Nodup :=
  h.sublist (keys_eraseA_sublist l k)

/-! ## Lemmas: index buckets -/

theorem inB_iff_getD (idx : Idx) (b k : String) :
    inB idx b k ↔ k ∈ (lookupA idx b).getD [] := by
  unfold inB
  rcases h : lookupA idx b with _ | ks <;> simp [h]

theorem lookupA_bucketAppend_self (idx : Idx) (b k : String) :
    lookupA (bucketAppend idx b k) b = some ((lookupA idx b).getD [] ++ [k]) := by
  induction idx with
  | nil => simp [bucketAppend, lookupA]
  | cons p rest ih =>
    obtain ⟨b0, ks⟩ := p
    by_cases h0 : b0 = b
    · subst h0; simp [bucketAppend, lookupA]
    · simp [bucketAppend, lookupA, h0, ih]

theorem lookupA_bucketAppend_ne (idx : Idx) (b k q : String) (h : q ≠ b) :
    lookupA (bucketAppend idx b k) q = lookupA idx q := by
  induction idx with
  | nil =>
    have hq : ¬ b = q := fun hb => h hb.symm
    simp [bucketAppend, lookupA, hq]
  | cons p rest ih =>
    obtain ⟨b0, ks⟩ := p
    by_cases h0 : b0 = b
    · subst h0
      have hq : ¬ b0 = q := fun hb => h hb.symm
      simp [bucketAppend, lookupA, hq]
    · by_cases h1 : b0 = q
      · subst h1; simp [bucketAppend, lookupA, h0]
      · simp [bucketAppend, lookupA, h0, h1, ih]

theorem inB_bucketAppend (idx : Idx) (b k q k' : String) :
    inB (bucketAppend idx b k) q k' ↔ inB idx q k' ∨ (q = b ∧ k' = k) := by
  by_cases hq : q = b
  · subst hq
    rw [inB_iff_getD, inB_iff_getD, lookupA_bucketAppend_self]
    simp
  · rw [inB_iff_getD, inB_iff_getD, lookupA_bucketAppend_ne _ _ _ _ hq]
    simp [hq]

theorem keys_bucketAppend (idx : Idx) (b k : String) :
    (bucketAppend idx b k).map Prod.fst =
      if b ∈ idx.map Prod.fst then idx.map Prod.fst else idx.map Prod.fst ++ [b] := by
  induction idx with
  | nil => simp [bucketAppend]
  | cons p rest ih =>
    obtain ⟨b0, ks⟩ := p
    by_cases h0 : b0 = b
    · subst h0; simp [bucketAppend]
    · simp only [bucketAppend, if_neg h0, List.map_cons, List.mem_cons, ih]
      by_cases h1 : b ∈ rest.map Prod.fst <;> simp [h1, Ne.symm h0]

theorem keys_bucketAppend_nodup (idx : Idx) (b k : String)
    (h : (idx.map Prod.fst).Nodup) : ((bucketAppend idx b k).map Prod.fst).Nodup := by
  rw [keys_bucketAppend]
  by_cases h1 : b ∈ idx.map Prod.fst
  · simpa [h1] using h
  · simp [h1, List.nodup_append, h]

theorem buckets_bucketAppend_nodup (idx : Idx) (b k : String)
    (hb : ∀ b0 ks, lookupA idx b0 = some ks → ks.Nodup) (hk : ¬ inB idx b k) :
    ∀ b0 ks, lookupA (bucketAppend idx b k) b0 = some ks → ks.Nodup := by
  intro b0 ks h
  by_cases hq : b0 = b
  · subst hq
    rw [lookupA_bucketAppend_self] at h
    obtain rfl : (lookupA idx b0).getD [] ++ [k] = ks := Option.some.inj h
    rw [inB_iff_getD] at hk
    have hnd : ((lookupA idx b0).getD []).Nodup := by
      rcases h0 : lookupA idx b0 with _ | ks0
      · simp
      · simpa using hb b0 ks0 h0
    simp [List.nodup_append, hnd, hk]
  · rw [lookupA_bucketAppend_ne _ _ _ _ hq] at h
    exact hb b0 ks h

theorem lookupA_bucketRemove_ne (idx : Idx) (b k q : String) (h : q ≠ b) :
    lookupA (bucketRemove idx b k) q = lookupA idx q := by
  induction idx with
  | nil =>
    have hq : ¬ b = q := fun hb => h hb.symm
    simp [bucketRemove, lookupA, hq]
  | cons p rest ih =>
    obtain ⟨b0, ks⟩ := p
    by_cases h0 : b0 = b
    · subst h0
      have hq : ¬ b0 = q := fun hb => h hb.symm
      by_cases hm : k ∈ ks
      · by_cases he : ks.erase k = [] <;> simp [bucketRemove, lookupA, hm, he, hq]
      · simp [bucketRemove, lookupA, hm, hq]
    · by_cases h1 : b0 = q
      · subst h1; simp [bucketRemove, lookupA, h0]
      · simp [bucketRemove, lookupA, h0, h1, ih]

theorem lookupA_bucketRemove_self_none (idx : Idx) (b k : String)
    (h : lookupA idx b = none) : lookupA (bucketRemove idx b k) b = some [] := by
  induction idx with
  | nil => simp [bucketRemove, lookupA]
  | cons p rest ih =>
    obtain ⟨b0, ks⟩ := p
    by_cases h0 : b0 = b
    · subst h0; simp [lookupA] at h
    · simp only [lookupA, if_neg h0] at h
      simp [bucketRemove, lookupA, h0, ih h]

theorem lookupA_bucketRemove_self_notmem (idx : Idx) (b k : String) (ks : List String)
    (h : lookupA idx b = some ks) (hk : k ∉ ks) :
    lookupA (bucketRemove idx b k) b = some ks := by
  induction idx with
  | nil => simp [lookupA] at h
  | cons p rest ih =>
    obtain ⟨b0, ks0⟩ := p
    by_cases h0 : b0 = b
    · subst h0
      simp only [lookupA, if_pos rfl] at h
      obtain rfl : ks0 = ks := Option.some.inj h
      simp [bucketRemove, lookupA, hk]
    · simp only [lookupA, if_neg h0] at h
      simp [bucketRemove, lookupA, h0, ih h]

theorem lookupA_bucketRemove_self_mem (idx : Idx) (b k : String) (ks : List String)
    (hnd : (idx.map Prod.fst).Nodup) (h : lookupA idx b = some ks) (hk : k ∈ ks) :
    lookupA (bucketRemove idx b k) b =
      if ks.erase k = [] then none else some (ks.erase k) := by
  induction idx with
  | nil => simp [lookupA] at h
  | cons p rest ih =>
    obtain ⟨b0, ks0⟩ := p
    simp only [List.map_cons, List.nodup_cons] at hnd
    by_cases h0 : b0 = b
    · subst h0
      simp only [lookupA, if_pos rfl] at h
      have hks : ks = ks0 := (Option.some.inj h).symm
      subst hks
      by_cases he : ks.erase k = []
      · rw [if_pos he]
        simp only [bucketRemove, if_pos rfl, if_pos hk, if_pos he]
        rw [lookupA_eq_none_iff]
        exact hnd.1
      · rw [if_neg he]
        simp [bucketRemove, lookupA, hk, he]
    · simp only [lookupA, if_neg h0] at h
      simp [bucketRemove, lookupA, h0, ih hnd.2 h]

theorem erase_eq_nil_mem {ks : List String} {k k' : String}
    (hnd : ks.Nodup) (he : ks.erase k = []) (hk' : k' ∈ ks) : k' = k := by
  by_contra hne
  have : k' ∈ ks.erase k := (List.Nodup.mem_erase_iff hnd).mpr ⟨hne, hk'⟩
  rw [he] at this
  exact absurd this (List.not_mem_nil k')

theorem inB_bucketRemove (idx : Idx) (b k q k' : String)
    (hnd : (idx.map Prod.fst).Nodup)
    (hb : ∀ b0 ks, lookupA idx b0 = some ks → ks.Nodup) :
    inB (bucketRemove idx b k) q k' ↔ inB idx q k' ∧ ¬(q = b ∧ k' = k) := by
  by_cases hq : q = b
  · subst hq
    rcases h : lookupA idx q with _ | ks
    · rw [inB_iff_getD, inB_iff_getD, lookupA_bucketRemove_self_none idx q k h, h]
      simp
    · have hksnd : ks.Nodup := hb q ks h
      by_cases hk : k ∈ ks
      · rw [inB_iff_getD, inB_iff_getD, lookupA_bucketRemove_self_mem idx q k ks hnd h hk, h]
        by_cases he : ks.erase k = []
        · rw [if_pos he]
          simp only [Option.getD_none, Option.getD_some]
          constructor
          · intro hfalse; exact absurd hfalse (List.not_mem_nil k')
          · rintro ⟨hmem, hcon⟩
            exact (hcon ⟨by trivial, erase_eq_nil_mem hksnd he hmem⟩).elim
        · rw [if_neg he]
          simp only [Option.getD_some, List.Nodup.mem_erase_iff hksnd]
          constructor
          · intro hh; exact ⟨hh.2, fun hc => hh.1 hc.2⟩
          · intro hh; exact ⟨fun hc => hh.2 ⟨by trivial, hc⟩, hh.1⟩
      · rw [inB_iff_getD, inB_iff_getD, lookupA_bucketRemove_self_notmem idx q k ks h hk, h]
        simp only [Option.getD_some]
        constructor
        · intro hh
          refine ⟨hh, fun hc => hk ?memk⟩
          exact hc.2 ▸ hh
        · intro hh; exact hh.1
  · rw [inB_iff_getD, inB_iff_getD, lookupA_bucketRemove_ne idx b k q hq]
    simp [hq]

theorem keys_bucketRemove_mem (idx : Idx) (b k : String) :
    ∀ x ∈ (bucketRemove idx b k).map Prod.fst, x ∈ idx.map Prod.fst ∨ x = b := by
  induction idx with
  | nil => simp [bucketRemove]
  | cons p rest ih =>
    obtain ⟨b0, ks⟩ := p
    by_cases h0 : b0 = b
    · subst h0
      by_cases hm : k ∈ ks
      · by_cases he : ks.erase k = [] <;> simp [bucketRemove, hm, he] <;> tauto
      · simp [bucketRemove, hm]; tauto
    · simp only [bucketRemove, if_neg h0, List.map_cons, List.mem_cons]
      intro x hx
      rcases hx with hx | hx
      · exact Or.inl (Or.inl hx)
      · rcases ih x hx with hy | hy
        · exact Or.inl (Or.inr hy)
        · exact Or.inr hy

theorem keys_bucketRemove_nodup (idx : Idx) (b k : String)
    (hnd : (idx.map Prod.fst).Nodup) : ((bucketRemove idx b k).map Prod.fst).Nodup := by
  induction idx with
  | nil => simp [bucketRemove]
  | cons p rest ih =>
    obtain ⟨b0, ks⟩ := p
    simp only [List.map_cons, List.nodup_cons] at hnd
    by_cases h0 : b0 = b
    · subst h0
      by_cases hm : k ∈ ks
      · by_cases he : ks.erase k = [] <;>
          simp [bucketRemove, hm, he, hnd.1, hnd.2]
      · simp [bucketRemove, hm, hnd.1, hnd.2]
    · simp only [bucketRemove, if_neg h0, List.map_cons, List.nodup_cons]
      refine ⟨fun hx => ?headmem, ih hnd.2⟩
      rcases keys_bucketRemove_mem rest b k b0 hx with hy | hy
      · exact hnd.1 hy
      · exact h0 hy

theorem buckets_bucketRemove_nodup (idx : Idx) (b k : String)
    (hnd : (idx.map Prod.fst).Nodup)
    (hb : ∀ b0 ks, lookupA idx b0 = some ks → ks.Nodup) :
    ∀ b0 ks, lookupA (bucketRemove idx b k) b0 = some ks → ks.Nodup := by
  intro b0 ks h
  by_cases hq : b0 = b
  · subst hq
    rcases h1 : lookupA idx b0 with _ | ks1
    · rw [lookupA_bucketRemove_self_none idx b0 k h1] at h
      obtain rfl : ([] : List String) = ks := Option.some.inj h
      simp
    · by_cases hk : k ∈ ks1
      · rw [lookupA_bucketRemove_self_mem idx b0 k ks1 hnd h1 hk] at h
        by_cases he : ks1.erase k = []
        · rw [if_pos he] at h; exact Option.noConfusion h
        · rw [if_neg he] at h
          obtain rfl : ks1.erase k = ks := Option.some.inj h
          exact (hb b0 ks1 h1).erase k
      · rw [lookupA_bucketRemove_self_notmem idx b0 k ks1 h1 hk] at h
        obtain rfl : ks1 = ks := Option.some.inj h
        exact hb b0 ks1 h1
  · rw [lookupA_bucketRemove_ne idx b k b0 hq] at h
    exact hb b0 ks h

/-! ## Lemmas: token index folds -/

theorem addTokens_cons (idx : Idx) (t : String) (ts : List String) (k : String) :
    addTokens idx (t :: ts) k = addTokens (bucketAppend idx t k) ts k := rfl

theorem removeTokens_cons (idx : Idx) (t : String) (ts : List String) (k : String) :
    removeTokens idx (t :: ts) k = removeTokens (bucketRemove idx t k) ts k := rfl

theorem inB_addTokens (idx : Idx) (ts : List String) (k q k' : String) :
    inB (addTokens idx ts k) q k' ↔ inB idx q k' ∨ (k' = k ∧ q ∈ ts) := by
  induction ts generalizing idx with
  | nil => simp [addTokens]
  | cons t ts ih =>
    rw [addTokens_cons, ih, inB_bucketAppend]
    simp only [List.mem_cons]
    constructor
    · rintro ((hh | hh) | hh)
      · exact Or.inl hh
      · exact Or.inr ⟨hh.2, Or.inl hh.1⟩
      · exact Or.inr ⟨hh.1, Or.inr hh.2⟩
    · rintro (hh | ⟨hk, ht | ht⟩)
      · exact Or.inl (Or.inl hh)
      · exact Or.inl (Or.inr ⟨ht, hk⟩)
      · exact Or.inr ⟨hk, ht⟩

theorem keys_addTokens_nodup (idx : Idx) (ts : List String) (k : String)
    (h : (idx.map Prod.fst).Nodup) : ((addTokens idx ts k).map Prod.fst).Nodup := by
  induction ts generalizing idx with
  | nil => exact h
  | cons t ts ih => exact ih _ (keys_bucketAppend_nodup idx t k h)

theorem buckets_addTokens_nodup (idx : Idx) (ts : List String) (k : String)
    (hts : ts.Nodup)
    (hb : ∀ b0 ks, lookupA idx b0 = some ks → ks.Nodup)
    (hk : ∀ t ∈ ts, ¬ inB idx t k) :
    ∀ b0 ks, lookupA (addTokens idx ts k) b0 = some ks → ks.Nodup := by
  induction ts generalizing idx with
  | nil => exact hb
  | cons t ts ih =>
    rw [List.nodup_cons] at hts
    rw [addTokens_cons]
    refine ih _ hts.2 (buckets_bucketAppend_nodup idx t k hb (hk t (List.mem_cons_self t ts))) ?fresh
    intro t' ht' hin
    rw [inB_bucketAppend] at hin
    rcases hin with hin | hin
    · exact hk t' (List.mem_cons_of_mem t ht') hin
    · exact hts.1 (hin.1 ▸ ht')

theorem keys_removeTokens_nodup (idx : Idx) (ts : List String) (k : String)
    (h : (idx.map Prod.fst).Nodup) : ((removeTokens idx ts k).map Prod.fst).Nodup := by
  induction ts generalizing idx with
  | nil => exact h
  | cons t ts ih => exact ih _ (keys_bucketRemove_nodup idx t k h)

theorem buckets_removeTokens_nodup (idx : Idx) (ts : List String) (k : String)
    (hnd : (idx.map Prod.fst).Nodup)
    (hb : ∀ b0 ks, lookupA idx b0 = some ks → ks.Nodup) :
    ∀ b0 ks, lookupA (removeTokens idx ts k) b0 = some ks → ks.Nodup := by
  induction ts generalizing idx with
  | nil => exact hb
  | cons t ts ih =>
    rw [removeTokens_cons]
    exact ih _ (keys_bucketRemove_nodup idx t k hnd)
      (buckets_bucketRemove_nodup idx t k hnd hb)

theorem inB_removeTokens (idx : Idx) (ts : List String) (k q k' : String)
    (hnd : (idx.map Prod.fst).Nodup)
    (hb : ∀ b0 ks, lookupA idx b0 = some ks → ks.Nodup) :
    inB (removeTokens idx ts k) q k' ↔ inB idx q k' ∧ ¬(k' = k ∧ q ∈ ts) := by
  induction ts generalizing idx with
  | nil => simp [removeTokens]
  | cons t ts ih =>
    rw [removeTokens_cons,
      ih _ (keys_bucketRemove_nodup idx t k hnd) (buckets_bucketRemove_nodup idx t k hnd hb),
      inB_bucketRemove idx t k q k' hnd hb]
    simp only [List.mem_cons]
    constructor
    · rintro ⟨⟨hin, hq⟩, hcon⟩
      refine ⟨hin, fun hc => ?bad⟩
      rcases hc.2 with ht | ht
      · exact hq ⟨ht, hc.1⟩
      · exact hcon ⟨hc.1, ht⟩
    · rintro ⟨hin, hcon⟩
      refine ⟨⟨hin, fun hc => hcon ⟨hc.2, Or.inl hc.1⟩⟩, fun hc => hcon ⟨hc.1, Or.inr hc.2⟩⟩

/-! ## Lemmas: the flat numeric index -/

theorem mem_btreeIns (bt : List (String × Int)) (k : String) (n : Int) (p : String × Int) :
    p ∈ btreeIns bt k n ↔ p ∈ bt ∨ p = (k, n) := by
  induction bt with
  | nil => simp [btreeIns]
  | cons q rest ih =>
    obtain ⟨k0, n0⟩ := q
    by_cases h0 : n0 ≤ n
    · simp only [btreeIns, if_pos h0, List.mem_cons, ih]
      tauto
    · simp only [btreeIns, if_neg h0, List.mem_cons]
      tauto

theorem btreeIns_perm (bt : List (String × Int)) (k : String) (n : Int) :
    List.Perm (btreeIns bt k n) ((k, n) :: bt) := by
  induction bt with
  | nil => simp [btreeIns]
  | cons q rest ih =>
    obtain ⟨k0, n0⟩ := q
    by_cases h0 : n0 ≤ n
    · rw [btreeIns, if_pos h0]
      exact ((ih.cons (k0, n0)).trans (List.Perm.swap (k, n) (k0, n0) rest))
    · rw [btreeIns, if_neg h0]

theorem keys_btreeIns_nodup (bt : List (String × Int)) (k : String) (n : Int)
    (h : (bt.map Prod.fst).Nodup) (hk : k ∉ bt.map Prod.fst) :
    ((btreeIns bt k n).map Prod.fst).Nodup := by
  have hperm : List.Perm ((btreeIns bt k n).map Prod.fst) (k :: bt.map Prod.fst) :=
    (btreeIns_perm bt k n).map Prod.fst
  rw [hperm.nodup_iff, List.nodup_cons]
  exact ⟨hk, h⟩

theorem sorted_btreeIns (bt : List (String × Int)) (k : String) (n : Int)
    (h : bt.Pairwise (fun p q => p.2 ≤ q.2)) :
    (btreeIns bt k n).Pairwise (fun p q => p.2 ≤ q.2) := by
  induction bt with
  | nil => simp [btreeIns]
  | cons q rest ih =>
    obtain ⟨k0, n0⟩ := q
    rw [List.pairwise_cons] at h
    by_cases h0 : n0 ≤ n
    · rw [btreeIns, if_pos h0, List.pairwise_cons]
      refine ⟨fun p hp => ?hd, ih h.2⟩
      rcases (mem_btreeIns rest k n p).mp hp with hm | hm
      · exact h.1 p hm
      · rw [hm]; exact h0
    · rw [btreeIns, if_neg h0, List.pairwise_cons]
      refine ⟨fun p hp => ?hd2, List.pairwise_cons.mpr h⟩
      rcases List.mem_cons.mp hp with hm | hm
      · rw [hm]; exact le_of_lt (lt_of_not_le h0)
      · exact le_trans (le_of_lt (lt_of_not_le h0)) (h.1 p hm)

theorem keys_filter_ne_nodup (bt : List (String × Int)) (k : String)
    (h : (bt.map Prod.fst).Nodup) :
    ((bt.filter (fun p => p.1 != k)).map Prod.fst).Nodup :=
  h.sublist ((List.filter_sublist bt).map Prod.fst)

theorem mem_filter_ne (bt : List (String × Int)) (k : String) (p : String × Int) :
    p ∈ bt.filter (fun q => q.1 != k) ↔ p ∈ bt ∧ p.1 ≠ k := by
  simp [List.mem_filter]

theorem keys_filter_ne_not_mem (bt : List (String × Int)) (k : String) :
    k ∉ (bt.filter (fun p => p.1 != k)).map Prod.fst := by
  intro h
  rcases List.mem_map.mp h with ⟨p, hp, hpk⟩
  rcases (mem_filter_ne bt k p).mp hp with ⟨_, hne⟩
  exact hne hpk

theorem sorted_filter_ne (bt : List (String × Int)) (k : String)
    (h : bt.Pairwise (fun p q => p.2 ≤ q.2)) :
    (bt.filter (fun p => p.1 != k)).Pairwise (fun p q => p.2 ≤ q.2) :=
  h.sublist (List.filter_sublist bt)

/-! ## The index-consistency invariant -/

theorem dedupF_nodup (l : List String) : (dedupF l).Nodup := by
  induction l with
  | nil => simp [dedupF]
  | cons x xs ih =>
    rw [dedupF, List.nodup_cons]
    refine ⟨fun hx => ?selfmem, ih.filter _⟩
    rcases List.mem_filter.mp hx with ⟨_, hne⟩
    simp at hne

theorem tokensOf_nodup (v : Value) : (tokensOf v).Nodup := dedupF_nodup _

/-- Index-consistency invariant of an `SDB` state: store keys are
unique; every index is duplicate-free; a key sits in the Equality Index
bucket `b` exactly when its stored value canonically serializes to `b`;
a key sits in the Inverted Token Index bucket `t` exactly when `t` is a
token of its stored value's textual rendering; the Numeric Range Index
holds exactly one entry `(k, n)` for every key whose stored value
Python deems numeric (numbers and booleans) with numeric content `n`,
and it is sorted ascending by value.  In particular a live key appears
in no bucket other than those of its own value, and dead keys appear
nowhere. -/
structure SInv (db : SDB) : Prop where
  storeNodup : (db.store.map Prod.fst).Nodup
  viLabels : (db.value_index.map Prod.fst).Nodup
  iiLabels : (db.inverted_index.map Prod.fst).Nodup
  viBuckets : ∀ b ks, lookupA db.value_index b = some ks → ks.Nodup
  iiBuckets : ∀ t ks, lookupA db.inverted_index t = some ks → ks.Nodup
  viMem : ∀ b k, inB db.value_index b k ↔
    ∃ v, lookupA db.store k = some v ∧ serialize v = b
  iiMem : ∀ t k, inB db.inverted_index t k ↔
    ∃ v, lookupA db.store k = some v ∧ t ∈ tokensOf v
  btMem : ∀ k n, (k, n) ∈ db.btree ↔
    ∃ v, lookupA db.store k = some v ∧ isNumericPy v = true ∧ numValOf v = n
  btKeys : (db.btree.map Prod.fst).Nodup
  btSorted : db.btree.Pairwise (fun p q => p.2 ≤ q.2)

theorem SInv.empty : SInv sdbEmpty := by
  refine ⟨?a, ?b, ?c, ?d, ?e, ?f, ?g, ?h, ?i, ?j⟩ <;>
    simp [sdbEmpty, inB, lookupA]

theorem SInv.not_inB_vi {db : SDB} (h : SInv db) {k : String}
    (hk : lookupA db.store k = none) (b : String) : ¬ inB db.value_index b k := by
  intro hin
  rcases (h.viMem b k).mp hin with ⟨v, hv, _⟩
  rw [hk] at hv
  exact Option.noConfusion hv

theorem SInv.not_inB_ii {db : SDB} (h : SInv db) {k : String}
    (hk : lookupA db.store k = none) (t : String) : ¬ inB db.inverted_index t k := by
  intro hin
  rcases (h.iiMem t k).mp hin with ⟨v, hv, _⟩
  rw [hk] at hv
  exact Option.noConfusion hv

theorem SInv.not_mem_bt_keys {db : SDB} (h : SInv db) {k : String}
    (hk : lookupA db.store k = none) : k ∉ db.btree.map Prod.fst := by
  intro hin
  rcases List.mem_map.mp hin with ⟨p, hp, hpk⟩
  obtain ⟨k0, n0⟩ := p
  rcases (h.btMem k0 n0).mp hp with ⟨v, hv, _⟩
  cases hpk
  rw [hk] at hv
  exact Option.noConfusion hv

theorem SInv.vi_bucket_eq {db : SDB} (h : SInv db) {k b : String} {v : Value}
    (hk : lookupA db.store k = some v) (hin : inB db.value_index b k) :
    b = serialize v := by
  rcases (h.viMem b k).mp hin with ⟨v0, hv0, hs⟩
  rw [hk] at hv0
  obtain rfl : v = v0 := Option.some.inj hv0
  exact hs.symm

theorem SInv.createParsed_pres {db : SDB} (h : SInv db) (k : String) (v : Value)
    (hfresh : lookupA db.store k = none) : SInv (db.createParsed k v) := by
  constructor
  · exact keys_setA_nodup _ _ _ h.storeNodup
  · exact keys_bucketAppend_nodup _ _ _ h.viLabels
  · exact keys_addTokens_nodup _ _ _ h.iiLabels
  · exact buckets_bucketAppend_nodup _ _ _ h.viBuckets (h.not_inB_vi hfresh _)
  · exact buckets_addTokens_nodup _ _ _ (tokensOf_nodup v) h.iiBuckets
      (fun t _ => h.not_inB_ii hfresh t)
  · show ∀ b k', inB (bucketAppend db.value_index (serialize v) k) b k' ↔
      ∃ v0, lookupA (setA db.store k v) k' = some v0 ∧ serialize v0 = b
    intro b k'
    rw [inB_bucketAppend]
    by_cases hkk : k = k'
    · subst hkk
      simp only [lookupA_setA, if_pos rfl]
      constructor
      · rintro (hin | hin)
        · exact absurd hin (h.not_inB_vi hfresh b)
        · exact ⟨v, rfl, hin.1.symm⟩
      · rintro ⟨v0, hv0, hs⟩
        obtain rfl : v = v0 := Option.some.inj hv0
        exact Or.inr ⟨hs.symm, by trivial⟩
    · simp only [lookupA_setA, if_neg hkk]
      constructor
      · rintro (hin | hin)
        · exact (h.viMem b k').mp hin
        · exact absurd hin.2 (fun hh => hkk hh.symm)
      · intro hex
        exact Or.inl ((h.viMem b k').mpr hex)
  · show ∀ t k', inB (addTokens db.inverted_index (tokensOf v) k) t k' ↔
      ∃ v0, lookupA (setA db.store k v) k' = some v0 ∧ t ∈ tokensOf v0
    intro t k'
    rw [inB_addTokens]
    by_cases hkk : k = k'
    · subst hkk
      simp only [lookupA_setA, if_pos rfl]
      constructor
      · rintro (hin | hin)
        · exact absurd hin (h.not_inB_ii hfresh t)
        · exact ⟨v, rfl, hin.2⟩
      · rintro ⟨v0, hv0, ht⟩
        obtain rfl : v = v0 := Option.some.inj hv0
        exact Or.inr ⟨by trivial, ht⟩
    · simp only [lookupA_setA, if_neg hkk]
      constructor
      · rintro (hin | hin)
        · exact (h.iiMem t k').mp hin
        · exact absurd hin.1 (fun hh => hkk hh.symm)
      · intro hex
        exact Or.inl ((h.iiMem t k').mpr hex)
  · show ∀ k' n,
      (k', n) ∈ (if isNumericPy v = true then btreeIns db.btree k (numValOf v) else db.btree) ↔
      ∃ v0, lookupA (setA db.store k v) k' = some v0 ∧ isNumericPy v0 = true ∧ numValOf v0 = n
    intro k' n
    by_cases hnum : isNumericPy v = true
    · rw [if_pos hnum, mem_btreeIns]
      by_cases hkk : k = k'
      · subst hkk
        simp only [lookupA_setA, if_pos rfl]
        constructor
        · rintro (hin | hin)
          · rcases (h.btMem k n).mp hin with ⟨v0, hv0, _⟩
            rw [hfresh] at hv0
            exact Option.noConfusion hv0
          · have hn := (Prod.mk.injEq k n k (numValOf v)).mp hin
            exact ⟨v, rfl, hnum, hn.2.symm⟩
        · rintro ⟨v0, hv0, hnum0, hval⟩
          obtain rfl : v = v0 := Option.some.inj hv0
          exact Or.inr (by rw [hval])
      · simp only [lookupA_setA, if_neg hkk]
        constructor
        · rintro (hin | hin)
          · exact (h.btMem k' n).mp hin
          · exact absurd ((Prod.mk.injEq k' n k (numValOf v)).mp hin).1.symm hkk
        · intro hex
          exact Or.inl ((h.btMem k' n).mpr hex)
    · rw [if_neg hnum]
      by_cases hkk : k = k'
      · subst hkk
        simp only [lookupA_setA, if_pos rfl]
        constructor
        · intro hin
          rcases (h.btMem k n).mp hin with ⟨v0, hv0, _⟩
          rw [hfresh] at hv0
          exact Option.noConfusion hv0
        · rintro ⟨v0, hv0, hnum0, _⟩
          obtain rfl : v = v0 := Option.some.inj hv0
          exact absurd hnum0 hnum
      · simp only [lookupA_setA, if_neg hkk]
        exact h.btMem k' n
  · show ((if isNumericPy v = true then btreeIns db.btree k (numValOf v) else db.btree).map
      Prod.fst).Nodup
    by_cases hnum : isNumericPy v = true
    · rw [if_pos hnum]
      exact keys_btreeIns_nodup _ _ _ h.btKeys (h.not_mem_bt_keys hfresh)
    · rw [if_neg hnum]
      exact h.btKeys
  · show (if isNumericPy v = true then btreeIns db.btree k (numValOf v) else db.btree).Pairwise
      (fun p q => p.2 ≤ q.2)
    by_cases hnum : isNumericPy v = true
    · rw [if_pos hnum]
      exact sorted_btreeIns _ _ _ h.btSorted
    · rw [if_neg hnum]
      exact h.btSorted

theorem SInv.updateBody_pres {db : SDB} (h : SInv db) (k : String) (old v2 : Value)
    (hold : lookupA db.store k = some old) : SInv (db.updateBody k old v2) := by
  have hvilab2 : ((bucketRemove db.value_index (serialize old) k).map Prod.fst).Nodup :=
    keys_bucketRemove_nodup _ _ _ h.viLabels
  have hvibk2 : ∀ b ks,
      lookupA (bucketRemove db.value_index (serialize old) k) b = some ks → ks.Nodup :=
    buckets_bucketRemove_nodup _ _ _ h.viLabels h.viBuckets
  have hiilab2 : ((removeTokens db.inverted_index (tokensOf old) k).map Prod.fst).Nodup :=
    keys_removeTokens_nodup _ _ _ h.iiLabels
  have hiibk2 : ∀ t ks,
      lookupA (removeTokens db.inverted_index (tokensOf old) k) t = some ks → ks.Nodup :=
    buckets_removeTokens_nodup _ _ _ h.iiLabels h.iiBuckets
  have hfreshvi : ¬ inB (bucketRemove db.value_index (serialize old) k) (serialize v2) k := by
    rw [inB_bucketRemove _ _ _ _ _ h.viLabels h.viBuckets]
    rintro ⟨hin, hcon⟩
    exact hcon ⟨h.vi_bucket_eq hold hin, rfl⟩
  have hfreshii : ∀ t ∈ tokensOf v2,
      ¬ inB (removeTokens db.inverted_index (tokensOf old) k) t k := by
    intro t _ hin
    rw [inB_removeTokens _ _ _ _ _ h.iiLabels h.iiBuckets] at hin
    rcases hin with ⟨hin2, hcon⟩
    rcases (h.iiMem t k).mp hin2 with ⟨v0, hv0, ht⟩
    rw [hold] at hv0
    obtain rfl : old = v0 := Option.some.inj hv0
    exact hcon ⟨rfl, ht⟩
  constructor
  · exact keys_setA_nodup _ _ _ h.storeNodup
  · exact keys_bucketAppend_nodup _ _ _ hvilab2
  · exact keys_addTokens_nodup _ _ _ hiilab2
  · exact buckets_bucketAppend_nodup _ _ _ hvibk2 hfreshvi
  · exact buckets_addTokens_nodup _ _ _ (tokensOf_nodup v2) hiibk2 hfreshii
  · show ∀ b k',
      inB (bucketAppend (bucketRemove db.value_index (serialize old) k) (serialize v2) k) b k' ↔
      ∃ v0, lookupA (setA db.store k v2) k' = some v0 ∧ serialize v0 = b
    intro b k'
    rw [inB_bucketAppend, inB_bucketRemove _ _ _ _ _ h.viLabels h.viBuckets]
    by_cases hkk : k = k'
    · subst hkk
      simp only [lookupA_setA, if_pos rfl]
      constructor
      · rintro (⟨hin, hcon⟩ | hin)
        · exact absurd ⟨h.vi_bucket_eq hold hin, by trivial⟩ hcon
        · exact ⟨v2, rfl, hin.1.symm⟩
      · rintro ⟨v0, hv0, hs⟩
        obtain rfl : v2 = v0 := Option.some.inj hv0
        exact Or.inr ⟨hs.symm, by trivial⟩
    · simp only [lookupA_setA, if_neg hkk]
      constructor
      · rintro (⟨hin, _⟩ | hin)
        · exact (h.viMem b k').mp hin
        · exact absurd hin.2 (fun hh => hkk hh.symm)
      · intro hex
        exact Or.inl ⟨(h.viMem b k').mpr hex, fun hc => hkk hc.2.symm⟩
  · show ∀ t k',
      inB (addTokens (removeTokens db.inverted_index (tokensOf old) k) (tokensOf v2) k) t k' ↔
      ∃ v0, lookupA (setA db.store k v2) k' = some v0 ∧ t ∈ tokensOf v0
    intro t k'
    rw [inB_addTokens, inB_removeTokens _ _ _ _ _ h.iiLabels h.iiBuckets]
    by_cases hkk : k = k'
    · subst hkk
      simp only [lookupA_setA, if_pos rfl]
      constructor
      · rintro (⟨hin, hcon⟩ | hin)
        · rcases (h.iiMem t k).mp hin with ⟨v0, hv0, ht⟩
          rw [hold] at hv0
          obtain rfl : old = v0 := Option.some.inj hv0
          exact absurd ⟨by trivial, ht⟩ hcon
        · exact ⟨v2, rfl, hin.2⟩
      · rintro ⟨v0, hv0, ht⟩
        obtain rfl : v2 = v0 := Option.some.inj hv0
        exact Or.inr ⟨by trivial, ht⟩
    · simp only [lookupA_setA, if_neg hkk]
      constructor
      · rintro (⟨hin, _⟩ | hin)
        · exact (h.iiMem t k').mp hin
        · exact absurd hin.1 (fun hh => hkk hh.symm)
      · intro hex
        exact Or.inl ⟨(h.iiMem t k').mpr hex, fun hc => hkk hc.1.symm⟩
  · show ∀ k' n,
      (k', n) ∈ (if isNumericPy v2 = true then
        btreeIns (db.btree.filter (fun p => p.1 != k)) k (numValOf v2)
        else db.btree.filter (fun p => p.1 != k)) ↔
      ∃ v0, lookupA (setA db.store k v2) k' = some v0 ∧ isNumericPy v0 = true ∧ numValOf v0 = n
    intro k' n
    by_cases hnum : isNumericPy v2 = true
    · rw [if_pos hnum, mem_btreeIns, mem_filter_ne]
      by_cases hkk : k = k'
      · subst hkk
        simp only [lookupA_setA, if_pos rfl]
        constructor
        · rintro (⟨_, hne⟩ | hin)
          · exact absurd rfl hne
          · have hn := (Prod.mk.injEq k n k (numValOf v2)).mp hin
            exact ⟨v2, rfl, hnum, hn.2.symm⟩
        · rintro ⟨v0, hv0, hnum0, hval⟩
          obtain rfl : v2 = v0 := Option.some.inj hv0
          exact Or.inr (by rw [hval])
      · simp only [lookupA_setA, if_neg hkk]
        constructor
        · rintro (⟨hin, _⟩ | hin)
          · exact (h.btMem k' n).mp hin
          · exact absurd ((Prod.mk.injEq k' n k (numValOf v2)).mp hin).1.symm hkk
        · intro hex
          exact Or.inl ⟨(h.btMem k' n).mpr hex, fun hh => hkk hh.symm⟩
    · rw [if_neg hnum, mem_filter_ne]
      by_cases hkk : k = k'
      · subst hkk
        simp only [lookupA_setA, if_pos rfl]
        constructor
        · rintro ⟨_, hne⟩
          exact absurd rfl hne
        · rintro ⟨v0, hv0, hnum0, _⟩
          obtain rfl : v2 = v0 := Option.some.inj hv0
          exact absurd hnum0 hnum
      · simp only [lookupA_setA, if_neg hkk]
        constructor
        · rintro ⟨hin, _⟩
          exact (h.btMem k' n).mp hin
        · intro hex
          exact ⟨(h.btMem k' n).mpr hex, fun hh => hkk hh.symm⟩
  · show ((if isNumericPy v2 = true then
      btreeIns (db.btree.filter (fun p => p.1 != k)) k (numValOf v2)
      else db.btree.filter (fun p => p.1 != k)).map Prod.fst).Nodup
    by_cases hnum : isNumericPy v2 = true
    · rw [if_pos hnum]
      exact keys_btreeIns_nodup _ _ _ (keys_filter_ne_nodup _ _ h.btKeys)
        (keys_filter_ne_not_mem _ _)
    · rw [if_neg hnum]
      exact keys_filter_ne_nodup _ _ h.btKeys
  · show (if isNumericPy v2 = true then
      btreeIns (db.btree.filter (fun p => p.1 != k)) k (numValOf v2)
      else db.btree.filter (fun p => p.1 != k)).Pairwise (fun p q => p.2 ≤ q.2)
    by_cases hnum : isNumericPy v2 = true
    · rw [if_pos hnum]
      exact sorted_btreeIns _ _ _ (sorted_filter_ne _ _ h.btSorted)
    · rw [if_neg hnum]
      exact sorted_filter_ne _ _ h.btSorted

theorem SInv.delete_pres {db : SDB} (h : SInv db) (k : String) : SInv (db.delete k).1 := by
  rcases hold : lookupA db.store k with _ | v
  · have hsame : (db.delete k).1 = db := by
      simp [SDB.delete, hold]
    rw [hsame]
    exact h
  · have hd : (db.delete k).1 =
      { store := eraseA db.store k
        value_index := bucketRemove db.value_index (serialize v) k
        inverted_index := removeTokens db.inverted_index (tokensOf v) k
        btree := db.btree.filter (fun p => p.1 != k)
        transaction_log :=
          if db.transaction_active then db.transaction_log ++ [URec.delete k v]
          else db.transaction_log
        transaction_active := db.transaction_active } := by
      simp [SDB.delete, hold]
    rw [hd]
    constructor
    · exact keys_eraseA_nodup _ _ h.storeNodup
    · exact keys_bucketRemove_nodup _ _ _ h.viLabels
    · exact keys_removeTokens_nodup _ _ _ h.iiLabels
    · exact buckets_bucketRemove_nodup _ _ _ h.viLabels h.viBuckets
    · exact buckets_removeTokens_nodup _ _ _ h.iiLabels h.iiBuckets
    · show ∀ b k', inB (bucketRemove db.value_index (serialize v) k) b k' ↔
        ∃ v0, lookupA (eraseA db.store k) k' = some v0 ∧ serialize v0 = b
      intro b k'
      rw [inB_bucketRemove _ _ _ _ _ h.viLabels h.viBuckets]
      by_cases hkk : k' = k
      · subst hkk
        rw [lookupA_eraseA_self _ _ h.storeNodup]
        constructor
        · rintro ⟨hin, hcon⟩
          exact absurd ⟨h.vi_bucket_eq hold hin, rfl⟩ hcon
        · rintro ⟨v0, hv0, _⟩
          exact Option.noConfusion hv0
      · rw [lookupA_eraseA_ne _ _ _ hkk]
        constructor
        · rintro ⟨hin, _⟩
          exact (h.viMem b k').mp hin
        · intro hex
          exact ⟨(h.viMem b k').mpr hex, fun hc => hkk hc.2⟩
    · show ∀ t k', inB (removeTokens db.inverted_index (tokensOf v) k) t k' ↔
        ∃ v0, lookupA (eraseA db.store k) k' = some v0 ∧ t ∈ tokensOf v0
      intro t k'
      rw [inB_removeTokens _ _ _ _ _ h.iiLabels h.iiBuckets]
      by_cases hkk : k' = k
      · subst hkk
        rw [lookupA_eraseA_self _ _ h.storeNodup]
        constructor
        · rintro ⟨hin, hcon⟩
          rcases (h.iiMem t k').mp hin with ⟨v0, hv0, ht⟩
          rw [hold] at hv0
          obtain rfl : v = v0 := Option.some.inj hv0
          exact absurd ⟨rfl, ht⟩ hcon
        · rintro ⟨v0, hv0, _⟩
          exact Option.noConfusion hv0
      · rw [lookupA_eraseA_ne _ _ _ hkk]
        constructor
        · rintro ⟨hin, _⟩
          exact (h.iiMem t k').mp hin
        · intro hex
          exact ⟨(h.iiMem t k').mpr hex, fun hc => hkk hc.1⟩
    · show ∀ k' n, (k', n) ∈ db.btree.filter (fun p => p.1 != k) ↔
        ∃ v0, lookupA (eraseA db.store k) k' = some v0 ∧ isNumericPy v0 = true ∧ numValOf v0 = n
      intro k' n
      rw [mem_filter_ne]
      by_cases hkk : k' = k
      · subst hkk
        rw [lookupA_eraseA_self _ _ h.storeNodup]
        constructor
        · rintro ⟨_, hne⟩
          exact absurd rfl hne
        · rintro ⟨v0, hv0, _⟩
          exact Option.noConfusion hv0
      · rw [lookupA_eraseA_ne _ _ _ hkk]
        constructor
        · rintro ⟨hin, _⟩
          exact (h.btMem k' n).mp hin
        · intro hex
          exact ⟨(h.btMem k' n).mpr hex, hkk⟩
    · exact keys_filter_ne_nodup _ _ h.btKeys
    · exact sorted_filter_ne _ _ h.btSorted

theorem SInv.updateParsed_pres {db : SDB} (h : SInv db) (k : String) (parsed : Value) :
    SInv (db.updateParsed k parsed).1 := by
  rcases hold : lookupA db.store k with _ | old
  · have hsame : (db.updateParsed k parsed).1 = db := by
      simp [SDB.updateParsed, hold]
    rw [hsame]
    exact h
  · rcases hcf : carryFw old parsed with _ | v2
    · have hsame : (db.updateParsed k parsed).1 = db := by
        simp [SDB.updateParsed, hold, hcf]
      rw [hsame]
      exact h
    · have hbody : (db.updateParsed k parsed).1 = db.updateBody k old v2 := by
        simp [SDB.updateParsed, hold, hcf]
      rw [hbody]
      exact h.updateBody_pres k old v2 hold

theorem SInv.createParsedOp_pres {db : SDB} (h : SInv db) (k : String) (v : Value) :
    SInv (db.createParsedOp k v).1 := by
  rcases hfresh : lookupA db.store k with _ | v0
  · have hb : (db.createParsedOp k v).1 = db.createParsed k v := by
      simp [SDB.createParsedOp, hfresh]
    rw [hb]
    exact h.createParsed_pres k v hfresh
  · have hsame : (db.createParsedOp k v).1 = db := by
      simp [SDB.createParsedOp, hfresh]
    rw [hsame]
    exact h

theorem SInv.applyOp_pres {db : SDB} (h : SInv db) (op : SOp) : SInv (db.applyOp op) := by
  cases op with
  | createOp k v => exact h.createParsedOp_pres k v
  | updateOp k v => exact h.updateParsed_pres k v
  | deleteOp k => exact h.delete_pres k

theorem SInv.applyOps_pres {db : SDB} (h : SInv db) (ops : List SOp) :
    SInv (db.applyOps ops) := by
  induction ops generalizing db with
  | nil => exact h
  | cons op ops ih => exact ih (h.applyOp_pres op)

/-! ## Helper characterization for range queries -/

theorem mem_btree_range_query (bt : List (String × Int)) (op : String) (x : Int) (k : String) :
    k ∈ btree_range_query bt op x ↔
      ∃ n, (k, n) ∈ bt ∧ ((op = ">" ∧ x < n) ∨ (op = "<" ∧ n < x)) := by
  unfold btree_range_query
  simp only [List.mem_map, List.mem_filter, Bool.or_eq_true, Bool.and_eq_true, beq_iff_eq,
    decide_eq_true_eq]
  constructor
  · rintro ⟨p, ⟨hp, hcond⟩, rfl⟩
    exact ⟨p.2, hp, hcond⟩
  · rintro ⟨n, hmem, hcond⟩
    exact ⟨(k, n), ⟨hmem, hcond⟩, rfl⟩

/-! ## Claim theorems -/

/-- C1 (counterexample): the claim excludes booleans from the Numeric
Range Index, but Python's `isinstance(value, (int, float))` accepts
booleans, so after the single non-transactional operation
`create("k", "true")` from an empty store the stored value of `k` is
the boolean `True` — not a number in the specification's sense — and yet
the Numeric Range Index contains the entry `("k", 1)`. -/
theorem C1_boolean_numeric_counterexample :
    ((sdbEmpty.create "k" "true").1.btree = [("k", 1)]) ∧
    (lookupA (sdbEmpty.create "k" "true").1.store "k" = some (Value.bool true)) ∧
    isNumberValue (Value.bool true) = false :=
  ⟨rfl, rfl, rfl⟩

/-- C1 (amended): after any sequence of non-transactional
create/update/delete operations starting from the empty store, the
index-consistency invariant `SInv` holds: every live key `k` with
stored value `v` appears in the Equality Index bucket for
`serialize v`, appears in the Numeric Range Index (with its numeric
content) if and only if Python deems `v` numeric — a number or a
boolean, since `bool` is an `int` subclass — appears in the Inverted
Token Index bucket of every token of `v`'s textual rendering, and
appears in no other bucket of any index; dead keys appear nowhere, and
the numeric index is duplicate-free and sorted. -/
theorem C1_index_consistency_amended (ops : List SOp) :
    SInv (SDB.applyOps sdbEmpty ops) :=
  SInv.empty.applyOps_pres ops

/-- C2 (code divergence at the failing input): running
`begin; create("k", "5"); rollback` from the empty store leaves the
store, numeric index, log and flag as before `begin`, but the rollback
of the create record derives its bucket label from the logged
`old_value` (always `None` for create records), so the key `"k"` is
left behind in the Equality Index bucket `"5"` — and, in the
`src/simpledb.py` variant, in the Inverted Token Index bucket `"5"` —
contradicting the claimed exact restoration.  Both engine variants
diverge identically. -/
theorem C2_rollback_create_divergence :
    ((((sdbEmpty.begin).1.create "k" "5").1.rollback).1.store = []) ∧
    ((((sdbEmpty.begin).1.create "k" "5").1.rollback).1.btree = []) ∧
    ((((sdbEmpty.begin).1.create "k" "5").1.rollback).1.value_index = [("5", ["k"])]) ∧
    ((((sdbEmpty.begin).1.create "k" "5").1.rollback).1.inverted_index = [("5", ["k"])]) ∧
    ((((sdbEmpty.begin).1.create "k" "5").1.rollback).1.value_index ≠ sdbEmpty.value_index) ∧
    ((((kvEmpty.begin).1.create "k" "5").1.rollback).1.value_index = [("5", ["k"])]) ∧
    ((((kvEmpty.begin).1.create "k" "5").1.rollback).1.store = []) := by
  refine ⟨rfl, rfl, rfl, rfl, ?ne, rfl, rfl⟩
  have hne : (("5", ["k"]) :: [] : List (String × List String)) ≠ [] := by simp
  exact fun hcon => hne hcon

/-- C4: rollback replays the undo log in recorded order.  First, replay
is a left fold: replaying a concatenation replays the first segment
first.  Second, in the concrete double-update transaction
`create("a","5"); begin; update("a","6"); update("a","7"); rollback`,
the post-rollback value of `"a"` is `6` — the value produced by
applying the undo records front-to-back — whereas replaying the same
log in reverse order would have restored `5`. -/
theorem C4_rollback_recorded_order :
    (∀ (db : KV) (l1 l2 : List URec),
      KV.replay db (l1 ++ l2) = KV.replay (KV.replay db l1) l2) ∧
    lookupA (((((kvEmpty.create "a" "5").1.begin).1.update "a" "6").1.update
      "a" "7").1.rollback).1.store "a" = some (Value.num 6) ∧
    lookupA (KV.replay ((((kvEmpty.create "a" "5").1.begin).1.update "a" "6").1.update
        "a" "7").1
      ((((kvEmpty.create "a" "5").1.begin).1.update "a" "6").1.update
        "a" "7").1.transaction_log.reverse).store "a" = some (Value.num 5) := by
  refine ⟨?gen, rfl, rfl⟩
  intro db l1 l2
  simp [KV.replay, List.foldl_append]

/-- C5: numeric range queries are strict.  A key is in the result of a
`>` (resp. `<`) query exactly when its numeric index entry is strictly
greater (resp. smaller) than the bound; under the reachable-state
discipline of one entry per key the result has no duplicates; and the
specification's concrete example `create("a","5"); create("b","7")`
yields exactly `["b"]` for `> 5` and exactly `["a"]` for `< 7`. -/
theorem C5_range_query_strict :
    (∀ (bt : List (String × Int)) (x : Int) (k : String),
      (k ∈ btree_range_query bt ">" x ↔ ∃ n, (k, n) ∈ bt ∧ x < n) ∧
      (k ∈ btree_range_query bt "<" x ↔ ∃ n, (k, n) ∈ bt ∧ n < x)) ∧
    (∀ (bt : List (String × Int)) (op : String) (x : Int),
      (bt.map Prod.fst).Nodup → (btree_range_query bt op x).Nodup) ∧
    btree_range_query ((kvEmpty.create "a" "5").1.create "b" "7").1.btree ">" 5 = ["b"] ∧
    btree_range_query ((kvEmpty.create "a" "5").1.create "b" "7").1.btree "<" 7 = ["a"] := by
  refine ⟨?mem, ?nd, rfl, rfl⟩
  · intro bt x k
    constructor
    · rw [mem_btree_range_query]
      constructor
      · rintro ⟨n, hmem, (⟨_, hgt⟩ | ⟨hop, _⟩)⟩
        · exact ⟨n, hmem, hgt⟩
        · exact absurd hop (by decide)
      · rintro ⟨n, hmem, hgt⟩
        exact ⟨n, hmem, Or.inl ⟨rfl, hgt⟩⟩
    · rw [mem_btree_range_query]
      constructor
      · rintro ⟨n, hmem, (⟨hop, _⟩ | ⟨_, hlt⟩)⟩
        · exact absurd hop (by decide)
        · exact ⟨n, hmem, hlt⟩
      · rintro ⟨n, hmem, hlt⟩
        exact ⟨n, hmem, Or.inr ⟨rfl, hlt⟩⟩
  · intro bt op x h
    exact h.sublist ((List.filter_sublist bt).map Prod.fst)

/-- Witness for C5 at a concrete sorted node with duplicate-free keys. -/
theorem C5_range_query_strict_witness :
    (([("a", (5 : Int)), ("b", 7)].map Prod.fst).Nodup) ∧
    (btree_range_query [("a", (5 : Int)), ("b", 7)] ">" 5).Nodup :=
  ⟨by decide, C5_range_query_strict.2.1 [("a", 5), ("b", 7)] ">" 5 (by decide)⟩

/-- C6: replaying an update (or delete) undo record re-installs the
logged prior value under the key and performs a full index rebuild; in
the concrete scenario `create("a","5"); begin; update("a","6");
rollback`, reading `"a"` afterwards returns `5` and the Numeric Range
Index again contains exactly the entry `("a", 5)`. -/
theorem C6_rollback_update_restores :
    (∀ (db : KV) (k : String) (old : Value),
      KV.applyUndo db (URec.update k old) =
        KV.rebuild { db with store := setA db.store k old } ∧
      KV.applyUndo db (URec.delete k old) =
        KV.rebuild { db with store := setA db.store k old }) ∧
    KV.read ((((kvEmpty.create "a" "5").1.begin).1.update "a" "6").1.rollback).1 "a" =
      some "5" ∧
    ((((kvEmpty.create "a" "5").1.begin).1.update "a" "6").1.rollback).1.btree =
      [("a", 5)] :=
  ⟨fun _ _ _ => ⟨rfl, rfl⟩, rfl, rfl⟩

/-- C7: creating an already-present key fails with the `KeyExists`
result — returned to the caller, not raised — and leaves the whole
engine state (store, every index, transaction log and transaction flag)
exactly unchanged, in both engine variants and for every raw value,
which is never even parsed. -/
theorem C7_create_existing_key_rejected (db : KV) (sdb : SDB) (k raw : String)
    (h1 : (lookupA db.store k).isSome = true)
    (h2 : (lookupA sdb.store k).isSome = true) :
    KV.create db k raw = (db, Outcome.keyExists) ∧
    SDB.create sdb k raw = (sdb, Outcome.keyExists) := by
  constructor
  · unfold KV.create
    rw [if_pos h1]
  · unfold SDB.create
    rw [if_pos h2]

/-- Witness for C7: re-creating `"a"` after `create("a","5")`. -/
theorem C7_create_existing_key_rejected_witness :
    KV.create (kvEmpty.create "a" "5").1 "a" "6" =
      ((kvEmpty.create "a" "5").1, Outcome.keyExists) ∧
    SDB.create (sdbEmpty.create "a" "5").1 "a" "6" =
      ((sdbEmpty.create "a" "5").1, Outcome.keyExists) :=
  C7_create_existing_key_rejected (kvEmpty.create "a" "5").1 (sdbEmpty.create "a" "5").1
    "a" "6" rfl rfl

/-- C8: when the snapshot file exists but fails to parse, or parses to
a non-object top level, `load` treats it as corruption: the exception
is caught (the operation returns normally), the in-memory store resets
to empty, and the empty store is immediately re-saved over the corrupt
snapshot.  The indexes and transaction state are untouched by this
path. -/
theorem C8_load_corruption_recovery (db : KV) :
    KV.load db Snapshot.corrupt = ({ db with store := [] }, Snapshot.valid []) ∧
    KV.load db Snapshot.nonObject = ({ db with store := [] }, Snapshot.valid []) :=
  ⟨rfl, rfl⟩

/-- C10: updating a key whose stored value carries attachment metadata
under the reserved `file_paths` field with a value that parses to a
non-dict raises a `TypeError` from the carry-forward item assignment
`parsed_value["file_paths"] = old_value["file_paths"]`; the error
propagates out of `update` (it is not returned as an operation result),
and nothing — store, indexes or transaction log — has been mutated at
that point. -/
theorem C10_update_attachment_type_error (db : SDB) (k : String)
    (ofs : List (String × Value)) (parsed : Value)
    (hold : lookupA db.store k = some (Value.obj ofs))
    (hfp : (lookupA ofs "file_paths").isSome = true)
    (hno : isObjValue parsed = false) :
    db.updateParsed k parsed = (db, Outcome.typeError) := by
  have hcf : carryFw (Value.obj ofs) parsed = none := by
    rcases hl : lookupA ofs "file_paths" with _ | fp
    · rw [hl] at hfp
      simp at hfp
    · cases parsed with
      | obj pfs => simp [isObjValue] at hno
      | null => simp [carryFw, hl]
      | bool b => simp [carryFw, hl]
      | num n => simp [carryFw, hl]
      | str s => simp [carryFw, hl]
      | arr xs => simp [carryFw, hl]
  simp [SDB.updateParsed, hold, hcf]

/-- Witness for C10: a record holding attachment metadata, updated with
the number `5`. -/
theorem C10_update_attachment_type_error_witness :
    attachFixture.updateParsed "k" (Value.num 5) = (attachFixture, Outcome.typeError) :=
  C10_update_attachment_type_error attachFixture "k" [("file_paths", Value.arr [])]
    (Value.num 5) rfl rfl rfl

/-! ## Full-text query characterization -/

theorem contains_iff_mem_str (l : List String) (k : String) :
    l.contains k = true ↔ k ∈ l := by
  simp

theorem getD_mem_iff (o : Option (List String)) (k : String) :
    k ∈ o.getD [] ↔ ∃ ks, o = some ks ∧ k ∈ ks := by
  cases o <;> simp

/-- C3 (amended): full-text queries intersect the buckets of the query
tokens that are present in the Inverted Token Index, silently skipping
absent tokens.  Precisely: the query fails with the empty-query error
iff it has no whitespace tokens; it reports no results iff it has
tokens but none of them label a bucket; and a key is returned iff at
least one token labels a bucket and the key lies in the bucket of every
token that labels one — a token entirely absent from the index does
not force an empty result. -/
theorem C3_fulltext_amended (db : SDB) (q : String) :
    (db.fulltext q = FtOut.emptyQuery ↔ ftTokens q = []) ∧
    (db.fulltext q = FtOut.noResults ↔
      ftTokens q ≠ [] ∧ ∀ w ∈ ftTokens q, lookupA db.inverted_index w = none) ∧
    (∀ k, (∃ ks, db.fulltext q = FtOut.found ks ∧ k ∈ ks) ↔
      ((∃ w ∈ ftTokens q, (lookupA db.inverted_index w).isSome = true) ∧
       ∀ w ∈ ftTokens q, ∀ ks, lookupA db.inverted_index w = some ks → k ∈ ks)) := by
  rcases hts : ftTokens q with _ | ⟨t0, ts⟩
  · have hft : db.fulltext q = FtOut.emptyQuery := by
      unfold SDB.fulltext
      rw [hts]
    refine ⟨?e1, ?e2, ?e3⟩
    · simp [hft]
    · simp [hft]
    · intro k
      simp [hft]
  · rcases hp : (ftTokens q).filter (fun w => (lookupA db.inverted_index w).isSome) with
      _ | ⟨w0, ws⟩
    · have hp2 : (t0 :: ts).filter (fun w => (lookupA db.inverted_index w).isSome) = [] := by
        rw [← hts]
        exact hp
      have hft : db.fulltext q = FtOut.noResults := by
        unfold SDB.fulltext
        rw [hts, hp2]
      have hnone : ∀ w ∈ t0 :: ts, lookupA db.inverted_index w = none := by
        intro w hw
        have hx := List.filter_eq_nil_iff.mp hp2 w hw
        simpa [Option.not_isSome_iff_eq_none] using hx
      refine ⟨?n1, ?n2, ?n3⟩
      · rw [hft]
        simp
      · constructor
        · intro _
          exact ⟨by simp, hnone⟩
        · intro _
          exact hft
      · intro k
        rw [hft]
        constructor
        · rintro ⟨ks, hcon, _⟩
          exact FtOut.noConfusion hcon
        · rintro ⟨⟨w, hw, hsome⟩, _⟩
          rw [hnone w hw] at hsome
          simp at hsome
    · have hp2 : (t0 :: ts).filter (fun w => (lookupA db.inverted_index w).isSome) =
          w0 :: ws := by
        rw [← hts]
        exact hp
      have hft : db.fulltext q = FtOut.found
          (((lookupA db.inverted_index w0).getD []).filter
            (fun k => ws.all (fun w => ((lookupA db.inverted_index w).getD []).contains k))) := by
        unfold SDB.fulltext
        rw [hts, hp2]
      have hw0 : w0 ∈ t0 :: ts ∧ (lookupA db.inverted_index w0).isSome = true := by
        have hm : w0 ∈ (t0 :: ts).filter (fun w => (lookupA db.inverted_index w).isSome) := by
          rw [hp2]
          exact List.mem_cons_self w0 ws
        simpa using List.mem_filter.mp hm
      have hws : ∀ w ∈ ws, w ∈ t0 :: ts ∧ (lookupA db.inverted_index w).isSome = true := by
        intro w hw
        have hm : w ∈ (t0 :: ts).filter (fun w => (lookupA db.inverted_index w).isSome) := by
          rw [hp2]
          exact List.mem_cons_of_mem w0 hw
        simpa using List.mem_filter.mp hm
      have hpresent : ∀ w ∈ t0 :: ts, (lookupA db.inverted_index w).isSome = true →
          w = w0 ∨ w ∈ ws := by
        intro w hw hsome
        have hm : w ∈ (t0 :: ts).filter (fun w => (lookupA db.inverted_index w).isSome) :=
          List.mem_filter.mpr ⟨hw, hsome⟩
        rw [hp2] at hm
        exact List.mem_cons.mp hm
      refine ⟨?f1, ?f2, ?f3⟩
      · rw [hft]
        simp
      · rw [hft]
        constructor
        · intro hcon
          exact FtOut.noConfusion hcon
        · rintro ⟨_, hall⟩
          have h2 := hw0.2
          rw [hall w0 hw0.1] at h2
          simp at h2
      · intro k
        rw [hft]
        constructor
        · rintro ⟨ks, hks, hk⟩
          obtain rfl := (FtOut.found.injEq _ _).mp hks
          rw [List.mem_filter] at hk
          rcases hk with ⟨hk0, hall⟩
          rw [List.all_eq_true] at hall
          refine ⟨⟨w0, hw0.1, hw0.2⟩, ?all⟩
          intro w hw ks2 hks2
          rcases hpresent w hw (by rw [hks2]; rfl) with rfl | hmem
          · rw [getD_mem_iff] at hk0
            rcases hk0 with ⟨ks3, hks3, hk3⟩
            rw [hks2] at hks3
            obtain rfl := Option.some.inj hks3
            exact hk3
          · have hc := hall w hmem
            rw [contains_iff_mem_str, getD_mem_iff] at hc
            rcases hc with ⟨ks3, hks3, hk3⟩
            rw [hks2] at hks3
            obtain rfl := Option.some.inj hks3
            exact hk3
        · rintro ⟨_, hall⟩
          refine ⟨_, rfl, ?inres⟩
          rw [List.mem_filter]
          constructor
          · rw [getD_mem_iff]
            rcases Option.isSome_iff_exists.mp hw0.2 with ⟨ks0, hks0⟩
            exact ⟨ks0, hks0, hall w0 hw0.1 ks0 hks0⟩
          · rw [List.all_eq_true]
            intro w hw
            rw [contains_iff_mem_str, getD_mem_iff]
            rcases Option.isSome_iff_exists.mp (hws w hw).2 with ⟨ks1, hks1⟩
            exact ⟨ks1, hks1, hall w (hws w hw).1 ks1 hks1⟩

/-- C3 (counterexample): with the single record `create("a","math")`,
the query `"math zzz"` — whose token `"zzz"` is entirely absent from
the Inverted Token Index — returns the key `"a"` as a partial match
over the present token `"math"`, instead of the no-results outcome the
claim requires. -/
theorem C3_partial_match_counterexample :
    (sdbEmpty.create "a" "math").1.fulltext "math zzz" = FtOut.found ["a"] ∧
    lookupA (sdbEmpty.create "a" "math").1.inverted_index "zzz" = none ∧
    (sdbEmpty.create "a" "math").1.fulltext "math zzz" ≠ FtOut.noResults := by
  refine ⟨rfl, rfl, ?ne⟩
  intro hcon
  rw [show (sdbEmpty.create "a" "math").1.fulltext "math zzz" = FtOut.found ["a"] from rfl]
    at hcon
  exact FtOut.noConfusion hcon

/-! ## Stable-sort machinery for the post-processing claim -/

theorem pyLtK_numClass (a b : SKey) (ha : isNumClass a = true) (hb : isNumClass b = true) :
    pyLtK a b = some (decide (numKeyVal a < numKeyVal b)) := by
  cases a with
  | negInf =>
    cases b with
    | negInf => simp [pyLtK, numKeyVal, lt_self_iff_false]
    | num n => simp [pyLtK, numKeyVal, WithBot.bot_lt_coe]
    | str s => simp [isNumClass] at hb
    | other => simp [isNumClass] at hb
  | num m =>
    cases b with
    | negInf => simp [pyLtK, numKeyVal, not_lt_bot]
    | num n => simp [pyLtK, numKeyVal, decide_eq_decide, WithBot.coe_lt_coe]
    | str s => simp [isNumClass] at hb
    | other => simp [isNumClass] at hb
  | str s => simp [isNumClass] at ha
  | other => simp [isNumClass] at ha

theorem charEqOfToNatEq (a b : Char) (h : a.toNat = b.toNat) : a = b := by
  unfold Char.toNat at h
  exact Char.eq_of_val_eq (UInt32.toNat.inj h)

theorem strLtL_lex (as bs : List Char) :
    strLtL as bs = true ↔ List.Lex (· < ·) as bs := by
  induction as generalizing bs with
  | nil =>
    cases bs with
    | nil =>
      simp only [strLtL]
      constructor
      · intro h
        exact Bool.noConfusion h
      · intro h
        cases h
    | cons b bs =>
      simp only [strLtL]
      constructor
      · intro _
        exact List.Lex.nil
      · intro _
        trivial
  | cons a as ih =>
    cases bs with
    | nil =>
      simp only [strLtL]
      constructor
      · intro h
        exact Bool.noConfusion h
      · intro h
        cases h
    | cons b bs =>
      simp only [strLtL]
      by_cases h1 : a.toNat < b.toNat
      · simp only [if_pos h1]
        constructor
        · intro _
          exact List.Lex.rel h1
        · intro _
          trivial
      · by_cases h2 : b.toNat < a.toNat
        · simp only [if_neg h1, if_pos h2]
          constructor
          · intro h
            exact Bool.noConfusion h
          · intro h
            cases h with
            | cons h3 => exact absurd h2 (lt_irrefl _)
            | rel h3 => exact absurd h3 h1
        · have heq : a = b :=
            charEqOfToNatEq a b
              (Nat.le_antisymm (Nat.le_of_not_lt h2) (Nat.le_of_not_lt h1))
          subst heq
          simp only [if_neg h1, if_neg h2]
          rw [ih bs]
          constructor
          · intro h
            exact List.Lex.cons h
          · intro h
            cases h with
            | cons h3 => exact h3
            | rel h3 => exact absurd h3 h1

theorem strLt_iff_lt (a b : String) : strLt a b = true ↔ a < b := by
  rw [String.lt_iff_toList_lt]
  exact strLtL_lex a.data b.data

theorem strLt_eq_decide (a b : String) : strLt a b = decide (a < b) := by
  by_cases h : a < b
  · rw [decide_eq_true h]
    exact (strLt_iff_lt a b).mpr h
  · rw [decide_eq_false h]
    exact Bool.eq_false_iff.mpr (fun hc => h ((strLt_iff_lt a b).mp hc))

theorem pyLtK_strClass (a b : SKey) (ha : isStrClass a = true) (hb : isStrClass b = true) :
    pyLtK a b = some (decide (strKeyVal a < strKeyVal b)) := by
  cases a with
  | str s =>
    cases b with
    | str t => simp [pyLtK, strKeyVal, strLt_eq_decide]
    | negInf => simp [isStrClass] at hb
    | num n => simp [isStrClass] at hb
    | other => simp [isStrClass] at hb
  | negInf => simp [isStrClass] at ha
  | num m => simp [isStrClass] at ha
  | other => simp [isStrClass] at ha

theorem insertLt_sorted {α κ : Type} [LinearOrder κ] [DecidableEq κ]
    [DecidableRel ((· < ·) : κ → κ → Prop)]
    (lt : α → α → Option Bool) (f : α → κ)
    (x : α) (acc : List α)
    (hlt : ∀ b ∈ acc, lt x b = some (decide (f x < f b)))
    (hsorted : acc.Pairwise (fun a b => f a ≤ f b)) :
    ∃ out, insertLt lt x acc = some out ∧
      List.Perm out (acc ++ [x]) ∧
      out.Pairwise (fun a b => f a ≤ f b) ∧
      (∀ c : κ, out.filter (fun y => decide (f y = c)) =
        (acc ++ [x]).filter (fun y => decide (f y = c))) := by
  induction acc with
  | nil => exact ⟨[x], rfl, by simp, by simp, fun c => rfl⟩
  | cons y ys ih =>
    rw [List.pairwise_cons] at hsorted
    have hxy := hlt y (List.mem_cons_self y ys)
    by_cases hlt_xy : f x < f y
    · have hdec : decide (f x < f y) = true := by simp [hlt_xy]
      refine ⟨x :: y :: ys, ?eq, ?perm, ?sorted, ?filt⟩
      · simp only [insertLt, hxy, hdec]
      · exact (List.perm_append_singleton x (y :: ys)).symm
      · rw [List.pairwise_cons]
        refine ⟨?bnd, List.pairwise_cons.mpr hsorted⟩
        intro z hz
        rcases List.mem_cons.mp hz with rfl | hz2
        · exact le_of_lt hlt_xy
        · exact le_trans (le_of_lt hlt_xy) (hsorted.1 z hz2)
      · intro c
        by_cases hc : f x = c
        · have hgt : ∀ z ∈ y :: ys, ¬ (f z = c) := by
            intro z hz hzc
            have hxz : f x < f z := by
              rcases List.mem_cons.mp hz with rfl | hz2
              · exact hlt_xy
              · exact lt_of_lt_of_le hlt_xy (hsorted.1 z hz2)
            rw [hzc, ← hc] at hxz
            exact lt_irrefl _ hxz
          have hfil : (y :: ys).filter (fun y0 => decide (f y0 = c)) = [] :=
            List.filter_eq_nil_iff.mpr (by intro a ha; simpa using hgt a ha)
          rw [List.filter_append, hfil]
          simp [List.filter_cons, hfil, hc]
        · rw [List.filter_append]
          simp [List.filter_cons, hc]
    · have hyx : f y ≤ f x := le_of_not_lt hlt_xy
      have hdec : decide (f x < f y) = false := by simp [hlt_xy]
      rcases ih (fun b hb => hlt b (List.mem_cons_of_mem y hb)) hsorted.2 with
        ⟨out, hout, hperm, hsort, hfilt⟩
      refine ⟨y :: out, ?eq2, ?perm2, ?sorted2, ?filt2⟩
      · simp only [insertLt, hxy, hdec, hout]
      · have h3 : (y :: ys) ++ [x] = y :: (ys ++ [x]) := rfl
        rw [h3]
        exact hperm.cons y
      · rw [List.pairwise_cons]
        refine ⟨?bnd2, hsort⟩
        intro z hz
        have hz2 : z ∈ ys ++ [x] := hperm.mem_iff.mp hz
        rcases List.mem_append.mp hz2 with hz3 | hz3
        · exact hsorted.1 z hz3
        · rw [List.mem_singleton.mp hz3]
          exact hyx
      · intro c
        by_cases hyc : f y = c <;>
          simp [List.cons_append, List.filter_cons, hyc, hfilt c]

theorem sortLtAux_sorted {α κ : Type} [LinearOrder κ] [DecidableEq κ]
    [DecidableRel ((· < ·) : κ → κ → Prop)]
    (lt : α → α → Option Bool) (f : α → κ) :
    ∀ (l acc : List α),
      (∀ a, (a ∈ l ∨ a ∈ acc) → ∀ b, (b ∈ l ∨ b ∈ acc) →
        lt a b = some (decide (f a < f b))) →
      acc.Pairwise (fun a b => f a ≤ f b) →
      ∃ out, sortLtAux lt l acc = some out ∧
        List.Perm out (acc ++ l) ∧
        out.Pairwise (fun a b => f a ≤ f b) ∧
        (∀ c : κ, out.filter (fun y => decide (f y = c)) =
          (acc ++ l).filter (fun y => decide (f y = c)))
  | [], acc, _, hsorted => ⟨acc, rfl, by simp, hsorted, by simp⟩
  | x :: xs, acc, hlt, hsorted => by
    rcases insertLt_sorted lt f x acc
        (fun b hb => hlt x (Or.inl (List.mem_cons_self x xs)) b (Or.inr hb)) hsorted with
      ⟨acc2, hacc2, hperm2, hsort2, hfilt2⟩
    have hmem2 : ∀ a, a ∈ acc2 → a ∈ acc ∨ a = x := by
      intro a ha
      have hm := hperm2.mem_iff.mp ha
      rcases List.mem_append.mp hm with h1 | h1
      · exact Or.inl h1
      · exact Or.inr (List.mem_singleton.mp h1)
    have hlt2 : ∀ a, (a ∈ xs ∨ a ∈ acc2) → ∀ b, (b ∈ xs ∨ b ∈ acc2) →
        lt a b = some (decide (f a < f b)) := by
      intro a ha b hb
      apply hlt
      · rcases ha with h1 | h1
        · exact Or.inl (List.mem_cons_of_mem x h1)
        · rcases hmem2 a h1 with h2 | h2
          · exact Or.inr h2
          · rw [h2]
            exact Or.inl (List.mem_cons_self x xs)
      · rcases hb with h1 | h1
        · exact Or.inl (List.mem_cons_of_mem x h1)
        · rcases hmem2 b h1 with h2 | h2
          · exact Or.inr h2
          · rw [h2]
            exact Or.inl (List.mem_cons_self x xs)
    rcases sortLtAux_sorted lt f xs acc2 hlt2 hsort2 with ⟨out, hout, hperm, hsort, hfilt⟩
    refine ⟨out, ?eq, ?perm, hsort, ?filt⟩
    · simp only [sortLtAux, hacc2, hout]
    · have h3 : ((acc ++ [x]) ++ xs) = (acc ++ (x :: xs)) := by
        rw [List.append_assoc, List.singleton_append]
      exact hperm.trans ((hperm2.append_right xs).trans (by rw [h3]))
    · intro c
      rw [hfilt c, List.filter_append, hfilt2 c, ← List.filter_append,
        List.append_assoc, List.singleton_append]

/-- C9 (amended): when a sort-by field is given, records missing the
field or whose value is not an object receive the sort key
`float('-inf')`, the minimal extreme of the numeric class.  Whenever
all result keys' sort keys are mutually comparable — all in the
numeric class (numeric field values, booleans, and the `-inf` default)
or all strings — the post-processing of `find` succeeds and produces
the stable ascending permutation of the results (equal keys keep their
original relative order, expressed by the per-key-class filter
equations), truncated to the first `n` keys after sorting when a limit
is given.  When incomparable sort keys are compared the comparison
raises `TypeError` and find returns a sorting error (see the
counterexample); element-wise comparison of list-valued sort fields is
outside the model. -/
theorem C9_postprocess_amended (db : SDB) (results : List String) (f : String)
    (lim : Option Nat) :
    ((∀ k ∈ results, isNumClass (db.get_sort_key k f) = true) →
      ∃ out, List.Perm out results ∧
        out.Pairwise (fun a b =>
          numKeyVal (db.get_sort_key a f) ≤ numKeyVal (db.get_sort_key b f)) ∧
        (∀ c : WithBot Int,
          out.filter (fun x => decide (numKeyVal (db.get_sort_key x f) = c)) =
          results.filter (fun x => decide (numKeyVal (db.get_sort_key x f) = c))) ∧
        db.postProcess results (some f) lim =
          PPOut.ok (match lim with | none => out | some n => out.take n)) ∧
    ((∀ k ∈ results, isStrClass (db.get_sort_key k f) = true) →
      ∃ out, List.Perm out results ∧
        out.Pairwise (fun a b =>
          strKeyVal (db.get_sort_key a f) ≤ strKeyVal (db.get_sort_key b f)) ∧
        (∀ c : String,
          out.filter (fun x => decide (strKeyVal (db.get_sort_key x f) = c)) =
          results.filter (fun x => decide (strKeyVal (db.get_sort_key x f) = c))) ∧
        db.postProcess results (some f) lim =
          PPOut.ok (match lim with | none => out | some n => out.take n)) := by
  constructor
  · intro hnum
    have hlt : ∀ a, (a ∈ results ∨ a ∈ ([] : List String)) →
        ∀ b, (b ∈ results ∨ b ∈ ([] : List String)) →
        pyLtK (db.get_sort_key a f) (db.get_sort_key b f) =
          some (decide (numKeyVal (db.get_sort_key a f) <
            numKeyVal (db.get_sort_key b f))) := by
      intro a ha b hb
      rcases ha with ha | ha
      · rcases hb with hb | hb
        · exact pyLtK_numClass _ _ (hnum a ha) (hnum b hb)
        · simp at hb
      · simp at ha
    rcases sortLtAux_sorted (fun a b => pyLtK (db.get_sort_key a f) (db.get_sort_key b f))
        (fun k => numKeyVal (db.get_sort_key k f)) results [] hlt List.Pairwise.nil with
      ⟨out, hout, hperm, hsort, hfilt⟩
    refine ⟨out, by simpa using hperm, hsort, ?filt, ?post⟩
    · intro c
      simpa using hfilt c
    · have hpost : db.postProcess results (some f) lim =
          match sortLtAux (fun a b => pyLtK (db.get_sort_key a f) (db.get_sort_key b f))
              results [] with
          | none => PPOut.sortError
          | some r => PPOut.ok (match lim with | none => r | some n => r.take n) := rfl
      rw [hpost, hout]
  · intro hstr
    have hlt : ∀ a, (a ∈ results ∨ a ∈ ([] : List String)) →
        ∀ b, (b ∈ results ∨ b ∈ ([] : List String)) →
        pyLtK (db.get_sort_key a f) (db.get_sort_key b f) =
          some (decide (strKeyVal (db.get_sort_key a f) <
            strKeyVal (db.get_sort_key b f))) := by
      intro a ha b hb
      rcases ha with ha | ha
      · rcases hb with hb | hb
        · exact pyLtK_strClass _ _ (hstr a ha) (hstr b hb)
        · simp at hb
      · simp at ha
    rcases sortLtAux_sorted (fun a b => pyLtK (db.get_sort_key a f) (db.get_sort_key b f))
        (fun k => strKeyVal (db.get_sort_key k f)) results [] hlt List.Pairwise.nil with
      ⟨out, hout, hperm, hsort, hfilt⟩
    refine ⟨out, by simpa using hperm, hsort, ?filt2, ?post2⟩
    · intro c
      simpa using hfilt c
    · have hpost : db.postProcess results (some f) lim =
          match sortLtAux (fun a b => pyLtK (db.get_sort_key a f) (db.get_sort_key b f))
              results [] with
          | none => PPOut.sortError
          | some r => PPOut.ok (match lim with | none => r | some n => r.take n) := rfl
      rw [hpost, hout]

/-- Witness for C9, exercising both comparability classes: two records
with numeric `age` fields, sorted with limit 1, and two records with
string `Name` fields, sorted without a limit. -/
theorem C9_postprocess_amended_witness :
    (∀ k ∈ (["s1", "s2"] : List String),
      isNumClass (sortFixture.get_sort_key k "age") = true) ∧
    (∃ out, List.Perm out ["s1", "s2"] ∧
      out.Pairwise (fun a b =>
        numKeyVal (sortFixture.get_sort_key a "age") ≤
          numKeyVal (sortFixture.get_sort_key b "age")) ∧
      (∀ c : WithBot Int,
        out.filter (fun x => decide (numKeyVal (sortFixture.get_sort_key x "age") = c)) =
        (["s1", "s2"] : List String).filter
          (fun x => decide (numKeyVal (sortFixture.get_sort_key x "age") = c))) ∧
      sortFixture.postProcess ["s1", "s2"] (some "age") (some 1) =
        PPOut.ok (match (some 1 : Option Nat) with | none => out | some n => out.take n)) ∧
    (∀ k ∈ (["t1", "t2"] : List String),
      isStrClass (strFixture.get_sort_key k "Name") = true) ∧
    (∃ out, List.Perm out ["t1", "t2"] ∧
      out.Pairwise (fun a b =>
        strKeyVal (strFixture.get_sort_key a "Name") ≤
          strKeyVal (strFixture.get_sort_key b "Name")) ∧
      (∀ c : String,
        out.filter (fun x => decide (strKeyVal (strFixture.get_sort_key x "Name") = c)) =
        (["t1", "t2"] : List String).filter
          (fun x => decide (strKeyVal (strFixture.get_sort_key x "Name") = c))) ∧
      strFixture.postProcess ["t1", "t2"] (some "Name") none =
        PPOut.ok (match (none : Option Nat) with | none => out | some n => out.take n)) :=
  ⟨by decide,
   (C9_postprocess_amended sortFixture ["s1", "s2"] "age" (some 1)).1 (by decide),
   by decide,
   (C9_postprocess_amended strFixture ["t1", "t2"] "Name" none).2 (by decide)⟩

/-- C9 (counterexample): a record with a string-valued sort field next
to a record missing the field (whose sort key is the `float('-inf')`
default): the comparison raises `TypeError` and the post-processing of
`find` returns a sorting error, contradicting the claim that the sort
itself never fails for such records. -/
theorem C9_sort_failure_counterexample :
    ({ sdbEmpty with store := [("s1", Value.obj [("f", Value.str "x")]),
        ("s2", Value.obj [("g", Value.num 1)])] } : SDB).postProcess
      ["s1", "s2"] (some "f") none = PPOut.sortError := rfl
